import Mathlib

/-!
# Verification of the `map-polygon-editor` core against its specification

This file is a shallow embedding, in Lean 4, of the transactional area
editor implemented in `src/editor.ts`, `src/area-store/area-store.ts`,
`src/area-level/area-level-store.ts` and `src/draft/validate-draft.ts`
of the `map-polygon-editor` repository, together with theorems settling
the specification claims about it.

Modelling conventions:

* JavaScript numbers (IEEE doubles) are modelled as exact rationals `ℚ`;
  all numeric literals of the source (`1e-8`, `1e-14`, `0.99`, …) are
  taken exactly.  The one construct that is not exactly representable,
  `Math.sqrt` inside `removeWhiskers`, is eliminated algebraically: the
  source condition `dot < -0.99 * len1 * len2` (with `len1, len2 > ε`)
  is equivalent to `dot < 0 ∧ dot² * 10000 > 9801 * len1² * len2²`.
* `Date` timestamps are modelled as a `Nat` supplied to each operation
  (`new Date()` is an external input); `crypto.randomUUID()` is modelled
  by identifier inputs supplied with each operation (the generator is
  external and assumed collision-free by the specification).
* JavaScript `Map` / `Set` are modelled as insertion-ordered association
  lists / lists without duplicates, with `set` replacing in place,
  `delete` removing, and `add` appending when absent — exactly the
  observable behaviour of the ECMAScript containers.
* The external geometry kernel (turf's `union`, `difference`,
  `intersect`, reached through `splitPolygonWithLine`) is out of scope
  per §6 of the specification; it appears as opaque function parameters
  of the editor configuration, exactly at the call boundary the source
  uses.
* TypeScript exceptions of the editor's error taxonomy are modelled by
  an error sum; a run that would crash with a non-taxonomy runtime
  error (e.g. indexing `undefined`) or diverge (unbounded ancestor
  walk) is modelled as `none`.
-/

namespace MapPolygonEditor

/-- A latitude/longitude point, `Point` of `src/types`. -/
structure Pt where
  lat : ℚ
  lng : ℚ
deriving DecidableEq, Repr

/-- A GeoJSON position `[lng, lat]` as used inside rings. -/
abbrev Coord := ℚ × ℚ

/-- GeoJSON `Polygon | MultiPolygon` geometry of an area. -/
inductive Geometry where
  | polygon (rings : List (List Coord))
  | multiPolygon (polys : List (List (List Coord)))
deriving DecidableEq, Repr

/-- The persisted `Area` entity of `src/types`. -/
structure Area where
  id : String
  display_name : String
  level_key : String
  parent_id : Option String
  geometry : Geometry
  metadata : Option String
  created_at : Nat
  updated_at : Nat
  is_implicit : Bool
deriving DecidableEq, Repr

/-- An `AreaLevel` of the static level taxonomy. -/
structure AreaLevel where
  key : String
  name : String
  parent_level_key : Option String
deriving DecidableEq, Repr

/-- A `bulkCreate` input item (`AreaInput` of `src/types`). -/
structure AreaInput where
  display_name : String
  level_key : String
  parent_id : Option String
  geometry : Geometry
  metadata : Option String
deriving DecidableEq, Repr

/-- A `{before, after}` pair of a `HistoryEntry.modified` list. -/
structure ModPair where
  before : Area
  after : Area
deriving DecidableEq, Repr

/-- The undo-facing `HistoryEntry` record. -/
structure HistoryEntry where
  created : List Area
  deleted : List Area
  modified : List ModPair
deriving DecidableEq, Repr

/-- The storage-facing `ChangeSet` record. -/
structure ChangeSet where
  created : List Area
  deleted : List String
  modified : List Area
deriving DecidableEq, Repr

/-- `DraftShape`: an ordered point sequence plus a closed flag. -/
structure DraftShape where
  points : List Pt
  isClosed : Bool
deriving DecidableEq, Repr

/-- Validation-group error kinds of the editor's error taxonomy
(`errors.ts`); `StorageError` is kept apart, see `EditErr`. -/
inductive VErr where
  | areaNotFound
  | areaLevelNotFound
  | levelMismatch
  | areaHasChildren
  | draftNotClosed
  | invalidGeometry
  | parentWouldBeEmpty
  | circularReference
  | noChildLevel
deriving DecidableEq, Repr

/-- An error surfaced by an edit operation: a validation error thrown
before any mutation, or a `StorageError` from the batch-write call. -/
inductive EditErr where
  | v (e : VErr)
  | storage
deriving DecidableEq, Repr

/-- The value returned by an edit operation. -/
inductive RetVal where
  | retArea (a : Area)
  | retAreas (l : List Area)
  | retPair (a b : Area)
  | retUnit
deriving DecidableEq, Repr

/-! ## Insertion-ordered association maps (JavaScript `Map`) and
insertion-ordered sets (JavaScript `Set`). -/

/-- `Map.get`: value of the first entry with the given key. -/
def mapFind {κ ν : Type} [DecidableEq κ] (l : List (κ × ν)) (k : κ) : Option ν :=
  (l.find? (fun e => e.1 = k)).map (·.2)

/-- `Map.set`: replace the value in place if the key is present,
otherwise append a new entry (insertion order). -/
def mapSet {κ ν : Type} [DecidableEq κ] (l : List (κ × ν)) (k : κ) (v : ν) :
    List (κ × ν) :=
  match l with
  | [] => [(k, v)]
  | e :: rest =>
      if e.1 = k then (k, v) :: rest else e :: mapSet rest k v

/-- `Map.delete`: remove the entry with the given key. -/
def mapDel {κ ν : Type} [DecidableEq κ] (l : List (κ × ν)) (k : κ) :
    List (κ × ν) :=
  l.filter (fun e => ¬ e.1 = k)

/-- `Set.add`: append the element if not already present. -/
def setAdd {α : Type} [DecidableEq α] (s : List α) (x : α) : List α :=
  if x ∈ s then s else s ++ [x]

/-- `Set.delete`: remove the element. -/
def setDel {α : Type} [DecidableEq α] (s : List α) (x : α) : List α :=
  s.filter (fun y => ¬ y = x)

theorem mapFind_cons {κ ν : Type} [DecidableEq κ]
    (e : κ × ν) (rest : List (κ × ν)) (x : κ) :
    mapFind (e :: rest) x = if e.1 = x then some e.2 else mapFind rest x := by
  by_cases h : e.1 = x <;> simp [mapFind, List.find?, h]

theorem mapFind_mapSet {κ ν : Type} [DecidableEq κ]
    (l : List (κ × ν)) (k : κ) (v : ν) (x : κ) :
    mapFind (mapSet l k v) x = if x = k then some v else mapFind l x := by
  induction l with
  | nil =>
      by_cases h : x = k
      · subst h; simp [mapSet, mapFind_cons, mapFind]
      · have h' : ¬ k = x := fun hh => h hh.symm
        simp [mapSet, mapFind_cons, mapFind, h, h']
  | cons e rest ih =>
      by_cases hek : e.1 = k
      · by_cases hxk : x = k
        · subst hxk
          simp [mapSet, hek, mapFind_cons]
        · have hkx : ¬ k = x := fun hh => hxk hh.symm
          have hex : ¬ e.1 = x := fun hh => hkx (hek ▸ hh)
          simp [mapSet, hek, mapFind_cons, hkx, hex, hxk]
      · by_cases hxe : e.1 = x
        · have hxk : ¬ x = k := by rintro rfl; exact hek hxe
          simp [mapSet, hek, mapFind_cons, hxe, hxk]
        · simp [mapSet, hek, mapFind_cons, hxe, ih]

theorem mapFind_mapDel {κ ν : Type} [DecidableEq κ]
    (l : List (κ × ν)) (k : κ) (x : κ) :
    mapFind (mapDel l k) x = if x = k then none else mapFind l x := by
  induction l with
  | nil => by_cases h : x = k <;> simp [mapDel, mapFind, h]
  | cons e rest ih =>
      by_cases hek : e.1 = k
      · have hrw : mapDel (e :: rest) k = mapDel rest k := by
          simp [mapDel, List.filter, hek]
        rw [hrw, ih]
        by_cases hxk : x = k
        · simp [hxk]
        · have hex : ¬ e.1 = x := fun hh => hxk (by rw [← hh, hek])
          simp [hxk, mapFind_cons, hex]
      · have hrw : mapDel (e :: rest) k = e :: mapDel rest k := by
          simp [mapDel, List.filter, hek]
        rw [hrw, mapFind_cons, mapFind_cons, ih]
        by_cases hxe : e.1 = x
        · have hxk : ¬ x = k := by rintro rfl; exact hek hxe
          simp [hxe, hxk]
        · simp [hxe]

/-! ## Implicit virtual identifiers (`area-store.ts`) -/

/-- `makeImplicitId`: builds the deterministic virtual id
`__implicit__<parentId>__<childLevelKey>`. -/
def makeImplicitId (parentId : String) (childLevelKey : String) : String :=
  "__implicit__" ++ parentId ++ "__" ++ childLevelKey

/-- Index of the last occurrence of `"__"` in a character list
(JavaScript `String.lastIndexOf("__")`). -/
def lastSep (cs : List Char) : Option Nat :=
  ((List.range cs.length).filter
    (fun i => cs.get? i = some '_' ∧ cs.get? (i + 1) = some '_')).getLast?

/-- `parseImplicitId`: parses `__implicit__<parentId>__<levelKey>`,
returning `none` when the id does not match the pattern. -/
def parseImplicitId (id : String) : Option (String × String) :=
  let cs := id.toList
  if cs.take 12 = "__implicit__".toList then
    let rest := cs.drop 12
    match lastSep rest with
    | none => none
    | some i =>
        let p := rest.take i
        let l := rest.drop (i + 2)
        if p = [] ∨ l = [] then none else some (String.mk p, String.mk l)
  else none

/-! ## Level store (`area-level-store.ts`)

The store's `levelByKey` and `childByParentKey` are JavaScript `Map`s
built from the level list; with duplicate keys the *last* entry wins,
hence the `reverse.find?` below. -/

/-- `AreaLevelStore.getAreaLevel`. -/
def getAreaLevel (levels : List AreaLevel) (key : String) : Option AreaLevel :=
  levels.reverse.find? (fun l => l.key = key)

/-- `AreaLevelStore.getChildLevel`: the level whose `parent_level_key`
equals `key`, provided `key` itself is a known level. -/
def getChildLevel (levels : List AreaLevel) (key : String) : Option AreaLevel :=
  if levels.any (fun l => l.key = key) then
    levels.reverse.find? (fun l => l.parent_level_key = some key)
  else none

/-- `AreaLevelStore.isLeafLevel`. -/
def isLeafLevel (levels : List AreaLevel) (key : String) : Bool :=
  levels.any (fun l => l.key = key) &&
    !(levels.any (fun l => l.parent_level_key = some key))

/-! ## Area store (`area-store.ts`) -/

/-- The in-memory `AreaStore`: primary `id → Area` map plus the
`parent_id → Set<id>` and `level_key → Set<id>` secondary indexes. -/
structure AreaStore where
  areas : List (String × Area)
  childrenIndex : List (Option String × List String)
  levelIndex : List (String × List String)
deriving DecidableEq, Repr

namespace AreaStore

/-- The store the constructor starts from. -/
def empty : AreaStore := ⟨[], [], []⟩

/-- Adds `x` to the set at `k`, creating the set first when absent
(the `if (!index.has(k)) index.set(k, new Set())` pattern). -/
def idxAdd {κ : Type} [DecidableEq κ] (l : List (κ × List String))
    (k : κ) (x : String) : List (κ × List String) :=
  match mapFind l k with
  | some s => mapSet l k (setAdd s x)
  | none => l ++ [(k, [x])]

/-- Removes `x` from the set at `k` when that set exists
(the `index.get(k)?.delete(x)` pattern). -/
def idxDel {κ : Type} [DecidableEq κ] (l : List (κ × List String))
    (k : κ) (x : String) : List (κ × List String) :=
  match mapFind l k with
  | some s => mapSet l k (setDel s x)
  | none => l

/-- `AreaStore.indexArea` (private). -/
def indexArea (s : AreaStore) (a : Area) : AreaStore :=
  { areas := mapSet s.areas a.id a
    childrenIndex := idxAdd s.childrenIndex a.parent_id a.id
    levelIndex := idxAdd s.levelIndex a.level_key a.id }

/-- `AreaStore.deindexArea` (private). -/
def deindexArea (s : AreaStore) (a : Area) : AreaStore :=
  { areas := mapDel s.areas a.id
    childrenIndex := idxDel s.childrenIndex a.parent_id a.id
    levelIndex := idxDel s.levelIndex a.level_key a.id }

/-- `AreaStore.addArea`. -/
def addArea (s : AreaStore) (a : Area) : AreaStore := s.indexArea a

/-- `AreaStore.updateArea`: deindex the existing record (if any), then
index the new one. -/
def updateArea (s : AreaStore) (a : Area) : AreaStore :=
  match mapFind s.areas a.id with
  | some existing => (s.deindexArea existing).indexArea a
  | none => s.indexArea a

/-- `AreaStore.deleteArea`: deindex the existing record; no-op on a
missing id. -/
def deleteArea (s : AreaStore) (id : String) : AreaStore :=
  match mapFind s.areas id with
  | some existing => s.deindexArea existing
  | none => s

/-- Primary-map lookup, `this.areas.get(id)`. -/
def find (s : AreaStore) (id : String) : Option Area :=
  mapFind s.areas id

/-- `AreaStore.getExplicitChildren` (private): the ids indexed under
`parentId`, resolved through the primary map, dropping dangling ids. -/
def getExplicitChildren (s : AreaStore) (parentId : String) : List Area :=
  ((mapFind s.childrenIndex (some parentId)).getD []).filterMap
    (fun id => s.find id)

/-- `AreaStore.synthesizeImplicitChild` (private). -/
def synthesizeImplicitChild (parent : Area) (childLevelKey : String) : Area :=
  { id := makeImplicitId parent.id childLevelKey
    display_name := ""
    level_key := childLevelKey
    parent_id := some parent.id
    geometry := parent.geometry
    metadata := none
    created_at := parent.created_at
    updated_at := parent.updated_at
    is_implicit := true }

/-- `AreaStore.getArea`: explicit lookup, then implicit-virtual-id
resolution. -/
def getArea (levels : List AreaLevel) (s : AreaStore) (id : String) :
    Option Area :=
  match s.find id with
  | some a => some a
  | none =>
      match parseImplicitId id with
      | none => none
      | some (parentId, levelKey) =>
          match s.find parentId with
          | none => none
          | some parent =>
              match getChildLevel levels parent.level_key with
              | none => none
              | some childLevel =>
                  if childLevel.key ≠ levelKey then none
                  else if (s.getExplicitChildren parent.id).length > 0 then none
                  else some (synthesizeImplicitChild parent childLevel.key)

/-- `AreaStore.getChildren`. -/
def getChildren (levels : List AreaLevel) (s : AreaStore) (parentId : String) :
    List Area :=
  let explicit := s.getExplicitChildren parentId
  if explicit.length > 0 then explicit
  else
    match s.find parentId with
    | none => []
    | some parent =>
        if isLeafLevel levels parent.level_key then []
        else
          match getChildLevel levels parent.level_key with
          | none => []
          | some childLevel =>
              [synthesizeImplicitChild parent childLevel.key]

/-- Key coherence: every primary-map entry stores a record whose `id`
equals its key.  All stores reachable through the store's mutation API
satisfy this (records are always indexed under their own id). -/
def KeyCoherent (s : AreaStore) : Prop :=
  ∀ k a, s.find k = some a → a.id = k

/-! ### Pointwise lemmas on the primary map -/

theorem find_indexArea (s : AreaStore) (a : Area) (x : String) :
    (s.indexArea a).find x = if x = a.id then some a else s.find x := by
  simp [indexArea, find, mapFind_mapSet]

theorem find_deindexArea (s : AreaStore) (a : Area) (x : String) :
    (s.deindexArea a).find x = if x = a.id then none else s.find x := by
  simp [deindexArea, find, mapFind_mapDel]

theorem find_addArea (s : AreaStore) (a : Area) (x : String) :
    (s.addArea a).find x = if x = a.id then some a else s.find x :=
  find_indexArea s a x

theorem find_updateArea (s : AreaStore) (hs : KeyCoherent s) (a : Area)
    (x : String) :
    (s.updateArea a).find x = if x = a.id then some a else s.find x := by
  unfold updateArea
  cases h : mapFind s.areas a.id with
  | none => exact find_indexArea s a x
  | some existing =>
      have hid : existing.id = a.id := hs a.id existing h
      rw [find_indexArea, find_deindexArea]
      by_cases hx : x = a.id
      · simp [hx]
      · simp [hx, hid]

theorem find_deleteArea (s : AreaStore) (hs : KeyCoherent s) (id : String)
    (x : String) :
    (s.deleteArea id).find x = if x = id then none else s.find x := by
  unfold deleteArea
  cases h : mapFind s.areas id with
  | none =>
      by_cases hx : x = id
      · subst hx; simp [find, h]
      · simp [hx]
  | some existing =>
      have hid : existing.id = id := hs id existing h
      rw [find_deindexArea]
      by_cases hx : x = id
      · simp [hx, hid]
      · simp [hx, hid]

theorem keyCoherent_indexArea (s : AreaStore) (hs : KeyCoherent s)
    (a : Area) : KeyCoherent (s.indexArea a) := by
  intro k b hb
  rw [find_indexArea] at hb
  by_cases hk : k = a.id
  · simp [hk] at hb; rw [← hb]; exact hk.symm
  · exact hs k b (by simpa [hk] using hb)

theorem keyCoherent_updateArea (s : AreaStore) (hs : KeyCoherent s)
    (a : Area) : KeyCoherent (s.updateArea a) := by
  intro k b hb
  rw [find_updateArea s hs] at hb
  by_cases hk : k = a.id
  · simp [hk] at hb; rw [← hb]; exact hk.symm
  · exact hs k b (by simpa [hk] using hb)

theorem keyCoherent_deleteArea (s : AreaStore) (hs : KeyCoherent s)
    (id : String) : KeyCoherent (s.deleteArea id) := by
  intro k b hb
  rw [find_deleteArea s hs] at hb
  by_cases hk : k = id
  · simp [hk] at hb
  · exact hs k b (by simpa [hk] using hb)

theorem keyCoherent_empty : KeyCoherent empty := by
  intro k a h
  simp [find, empty, mapFind] at h

end AreaStore

/-! ## Draft validation (`validate-draft.ts`) -/

/-- Violation codes produced by the draft validator. -/
inductive VCode where
  | TOO_FEW_VERTICES
  | ZERO_AREA
  | SELF_INTERSECTION
deriving DecidableEq, Repr

instance : Inhabited Pt := ⟨⟨0, 0⟩⟩

/-- Point at index `i` with a throwaway default (indices used below are
always in range). -/
def pget (ps : List Pt) (i : Nat) : Pt := ps.getD i ⟨0, 0⟩

/-- `hasZeroArea`: the shoelace sum over `[lng, lat]` is below `1e-14`
in absolute value. -/
def hasZeroArea (ps : List Pt) : Bool :=
  let n := ps.length
  let area := (List.range n).foldl
    (fun acc i =>
      let a := pget ps i
      let b := pget ps ((i + 1) % n)
      acc + a.lng * b.lat - b.lng * a.lat) 0
  |area| < 1 / 10 ^ 14

/-- `cross(p, q, r) = (q - p) × (r - p)` (2D cross product). -/
def cross (p q r : Pt) : ℚ :=
  (q.lng - p.lng) * (r.lat - p.lat) - (q.lat - p.lat) * (r.lng - p.lng)

/-- `differentSigns`: strictly different signs, both non-zero. -/
def differentSigns (a b : ℚ) : Bool := a * b < 0

/-- `segmentsIntersect`: proper crossing of segments AB and CD by the
4-orientation test; collinear contact is not counted. -/
def segmentsIntersect (a b c d : Pt) : Bool :=
  differentSigns (cross c d a) (cross c d b) &&
    differentSigns (cross a b c) (cross a b d)

/-- `hasSelfIntersection`: some pair of non-adjacent edges of the closed
polygon properly crosses (the wrap-around pair of first and last edge is
skipped as adjacent). -/
def hasSelfIntersection (ps : List Pt) : Bool :=
  let n := ps.length
  (List.range n).any fun i =>
    (List.range n).any fun j =>
      decide (i + 2 ≤ j) && !(decide (i = 0) && decide (j = n - 1)) &&
        segmentsIntersect (pget ps i) (pget ps ((i + 1) % n))
          (pget ps j) (pget ps ((j + 1) % n))

/-- `validateDraft`: the violation list for a draft; closed drafts with
fewer than 3 points return early with only `TOO_FEW_VERTICES`. -/
def validateDraft (d : DraftShape) : List VCode :=
  if d.isClosed then
    if d.points.length < 3 then [.TOO_FEW_VERTICES]
    else
      (if hasZeroArea d.points then [.ZERO_AREA] else []) ++
        (if hasSelfIntersection d.points then [.SELF_INTERSECTION] else [])
  else if d.points.length < 2 then [.TOO_FEW_VERTICES] else []

/-! ## Draft to GeoJSON (`draft-operations.ts`) -/

/-- Shoelace signed area of a (not necessarily closed) ring. -/
def signedArea (ring : List Coord) : ℚ :=
  let n := ring.length
  ((List.range n).foldl
    (fun acc i =>
      let a := ring.getD i (0, 0)
      let b := ring.getD ((i + 1) % n) (0, 0)
      acc + a.1 * b.2 - b.1 * a.2) 0) / 2

/-- `draftToGeoJSON`: CCW-normalised closed exterior ring; the source
throws an `Error` (not of the editor taxonomy) on an open draft or
fewer than 3 points, modelled as `none`. -/
def draftToGeoJSON (d : DraftShape) : Option Geometry :=
  if !d.isClosed then none
  else if d.points.length < 3 then none
  else
    let coords := d.points.map (fun p => (p.lng, p.lat))
    let coords := if signedArea coords < 0 then coords.reverse else coords
    match coords with
    | [] => none
    | c :: rest => some (.polygon [(c :: rest) ++ [c]])

/-! ## Editor point helpers (`editor.ts` private methods) -/

/-- `deduplicatePoints`: drop consecutive near-duplicates (within
`1e-8`), then drop a closing duplicate of the first point. -/
def deduplicatePoints (points : List Pt) : List Pt :=
  match points with
  | [] => []
  | first :: rest =>
      let eps : ℚ := 1 / 10 ^ 8
      let result := rest.foldl
        (fun acc curr =>
          match acc.getLast? with
          | none => acc
          | some prev =>
              if |curr.lat - prev.lat| > eps ∨ |curr.lng - prev.lng| > eps then
                acc ++ [curr]
              else acc)
        [first]
      match result with
      | [] => []
      | f :: _ :: _ =>
          match result.getLast? with
          | some lastPt =>
              if |lastPt.lat - f.lat| ≤ eps ∧ |lastPt.lng - f.lng| ≤ eps then
                result.dropLast
              else result
          | none => result
      | _ => result

/-- One pass of the whisker-removal backtrack scan: walks `result` from
index 1, either keeping the point or (on a sharp reversal) skipping two
indices; mirrors the inner `while` of `removeWhiskers`.  The source's
`dot < -0.99·len1·len2` (with `len1 = √L1` etc.) is expressed exactly
over `ℚ` as `dot < 0 ∧ dot²·10000 > 9801·L1·L2`. -/
def whiskerPass (res : Array Pt) (i : Nat) (next : Array Pt)
    (changed : Bool) : Array Pt × Bool :=
  if h : i + 1 < res.size then
    let p0 := next.back?.getD ⟨0, 0⟩
    let p1 := res[i]!
    let p2 := res[i + 1]!
    let v1lat := p1.lat - p0.lat
    let v1lng := p1.lng - p0.lng
    let v2lat := p2.lat - p1.lat
    let v2lng := p2.lng - p1.lng
    let dot := v1lat * v2lat + v1lng * v2lng
    let l1 := v1lat * v1lat + v1lng * v1lng
    let l2 := v2lat * v2lat + v2lng * v2lng
    let eps : ℚ := 1 / 10 ^ 8
    if l1 > eps ^ 2 ∧ l2 > eps ^ 2 ∧ dot < 0 ∧
        dot ^ 2 * 10000 > 9801 * (l1 * l2) then
      whiskerPass res (i + 2) next true
    else whiskerPass res (i + 1) (next.push p1) changed
  else
    (if i + 1 = res.size then next.push (res[res.size - 1]!) else next, changed)
termination_by res.size - i

/-- The outer fixed-point loop of `removeWhiskers`, fuelled: each
changed pass strictly shrinks the list, so fuel `size + 1` is never
exhausted on the source's reachable inputs. -/
def whiskerLoop (fuel : Nat) (result : Array Pt) : Array Pt :=
  match fuel with
  | 0 => result
  | fuel + 1 =>
      if result.size > 2 then
        match whiskerPass result 1 #[result[0]!] false with
        | (next, true) => whiskerLoop fuel next
        | (next, false) => next
      else result

/-- `removeWhiskers`: dedup consecutive points, then iteratively drop
backtracking interior vertices. -/
def removeWhiskers (points : List Pt) : List Pt :=
  if points.length ≤ 1 then points
  else
    let eps : ℚ := 1 / 10 ^ 8
    let deduped :=
      match points with
      | [] => []
      | first :: rest =>
          rest.foldl
            (fun acc curr =>
              match acc.getLast? with
              | none => acc
              | some prev =>
                  if |curr.lat - prev.lat| > eps ∨ |curr.lng - prev.lng| > eps
                  then acc ++ [curr] else acc)
            [first]
    if deduped.length ≤ 2 then deduped
    else (whiskerLoop (deduped.length + 1) (Array.mk deduped)).toList

/-- First-occurrence-order deduplication: the iteration order of a
JavaScript `Set` built from a list. -/
def dedupFirst (l : List String) : List String :=
  l.foldl (fun acc x => if x ∈ acc then acc else acc ++ [x]) []

/-! ## Editor configuration and state (`editor.ts`) -/

/-- Editor configuration after construction: the level list, the
resolved `maxUndoSteps` (`config.maxUndoSteps ?? 100`), the raw
optional `epsilon` (defaulted at use sites), and the three opaque
geometry-kernel entry points the source reaches through turf:
`splitPolygonWithLine` (float/`turf.intersect` cutting, consumed as a
piece list), `turf.difference` and `turf.union` (returning `null` when
the kernel produces nothing, handled by the callers' fallbacks). -/
structure Config where
  levels : List AreaLevel
  maxUndoSteps : Nat
  epsilonOpt : Option ℚ
  splitFn : Geometry → List Pt → List Geometry
  kDifference : Geometry → Geometry → Option Geometry
  kUnion : Geometry → Geometry → Option Geometry

/-- The mutable editor state: area store, the two history stacks
(newest entries at the tail, as in the source arrays), and a log of the
change sets handed to the storage adapter's `batchWrite`. -/
structure EState where
  store : AreaStore
  undoStack : List HistoryEntry
  redoStack : List HistoryEntry
  writes : List ChangeSet
deriving DecidableEq, Repr

instance {ε α : Type} [DecidableEq ε] [DecidableEq α] :
    DecidableEq (Except ε α) := fun a b =>
  match a, b with
  | .ok x, .ok y =>
      if h : x = y then isTrue (by rw [h]) else isFalse (by simp [h])
  | .error x, .error y =>
      if h : x = y then isTrue (by rw [h]) else isFalse (by simp [h])
  | .ok _, .error _ => isFalse (by simp)
  | .error _, .ok _ => isFalse (by simp)

/-- The editor state right after a successful `initialize()` over the
areas returned by `loadAll()`: the `AreaStore` constructor indexes each
area in order; both stacks start empty. -/
def initState (areas : List Area) : EState :=
  { store := areas.foldl AreaStore.indexArea AreaStore.empty
    undoStack := []
    redoStack := []
    writes := [] }

/-- `getExplicitChildrenOf` (editor private): children, implicit
synthetic one filtered out. -/
def explicitChildrenOf (cfg : Config) (s : AreaStore) (parentId : String) :
    List Area :=
  (AreaStore.getChildren cfg.levels s parentId).filter (fun c => !c.is_implicit)

/-- `updateAncestorGeometries`: walk the parent chain, re-unioning each
real ancestor that has explicit children; emits `{before, after}`
pairs.  Fuelled: the source's `while` diverges on a cyclic parent
chain, modelled as `none` on fuel exhaustion. -/
def buildUnionGeometry (children : List Area) : Geometry :=
  let allCoords := children.flatMap
    (fun c => match c.geometry with
      | .polygon cs => [cs]
      | .multiPolygon cs => cs)
  match allCoords with
  | [c] => .polygon c
  | _ => .multiPolygon allCoords

def updateAnc (cfg : Config) (now : Nat) :
    Nat → AreaStore → Option String → Option (AreaStore × List ModPair)
  | _, s, none => some (s, [])
  | 0, _, some _ => none
  | fuel + 1, s, some cid =>
      match AreaStore.getArea cfg.levels s cid with
      | none => some (s, [])
      | some anc =>
          if anc.is_implicit then some (s, [])
          else
            let children := explicitChildrenOf cfg s anc.id
            if children.length = 0 then updateAnc cfg now fuel s anc.parent_id
            else
              let before := anc
              let after := { anc with
                geometry := buildUnionGeometry children, updated_at := now }
              let s1 := s.updateArea after
              match updateAnc cfg now fuel s1 anc.parent_id with
              | none => none
              | some (s2, ps) => some (s2, ⟨before, after⟩ :: ps)

/-- Ancestor walks for each distinct affected parent of `bulkCreate`,
threading the store and concatenating the pair lists. -/
def updateAncMany (cfg : Config) (now : Nat) (fuel : Nat) :
    List String → AreaStore → List ModPair →
      Option (AreaStore × List ModPair)
  | [], s, acc => some (s, acc)
  | pid :: rest, s, acc =>
      match updateAnc cfg now fuel s (some pid) with
      | none => none
      | some (s1, ps) => updateAncMany cfg now fuel rest s1 (acc ++ ps)

/-- `collectDescendants`: BFS over the explicit-child graph from the
target, collecting full records; fuelled against cyclic data. -/
def collectDesc (cfg : Config) (s : AreaStore) :
    Nat → List String → List Area → Option (List Area)
  | _, [], acc => some acc
  | 0, _ :: _, _ => none
  | fuel + 1, id :: queue, acc =>
      match AreaStore.getArea cfg.levels s id with
      | none => collectDesc cfg s fuel queue acc
      | some a =>
          if a.is_implicit then collectDesc cfg s fuel queue acc
          else
            collectDesc cfg s fuel
              (queue ++ (explicitChildrenOf cfg s id).map (·.id)) (acc ++ [a])

/-- `isDescendant`: BFS with a visited set through the explicit-child
graph; `some true` iff `candidateId` is reachable below `ancestorId`. -/
def isDesc (cfg : Config) (s : AreaStore) (candidateId : String) :
    Nat → List String → List String → Option Bool
  | _, [], _ => some false
  | 0, _ :: _, _ => none
  | fuel + 1, cur :: queue, visited =>
      if cur ∈ visited then isDesc cfg s candidateId fuel queue visited
      else
        let children := explicitChildrenOf cfg s cur
        if candidateId ∈ children.map (·.id) then some true
        else
          isDesc cfg s candidateId fuel (queue ++ children.map (·.id))
            (visited ++ [cur])

/-- `getExteriorRing`: `coordinates[0]` of a Polygon or
`coordinates[0][0]` of a MultiPolygon; `none` models the `undefined`
access that would crash on empty coordinate lists. -/
def getExteriorRing : Geometry → Option (List Coord)
  | .polygon (r :: _) => some r
  | .polygon [] => none
  | .multiPolygon ((r :: _) :: _) => some r
  | .multiPolygon _ => none

/-- `moveVertexInArea`: rewrite every coordinate of every ring within
`epsilon` of the old vertex; `none` when nothing matched. -/
def moveRing (oldLng oldLat newLng newLat eps : ℚ) (ring : List Coord) :
    List Coord :=
  ring.map (fun c =>
    if |c.2 - oldLat| ≤ eps ∧ |c.1 - oldLng| ≤ eps then (newLng, newLat) else c)

def ringMoved (oldLng oldLat eps : ℚ) (ring : List Coord) : Bool :=
  ring.any (fun c => |c.2 - oldLat| ≤ eps ∧ |c.1 - oldLng| ≤ eps)

def moveVertexInArea (now : Nat) (a : Area)
    (oldLng oldLat newLng newLat eps : ℚ) : Option Area :=
  let (newGeometry, moved) :=
    match a.geometry with
    | .polygon rings =>
        (Geometry.polygon (rings.map (moveRing oldLng oldLat newLng newLat eps)),
          rings.any (ringMoved oldLng oldLat eps))
    | .multiPolygon polys =>
        (Geometry.multiPolygon
          (polys.map (fun rings =>
            List.map (moveRing oldLng oldLat newLng newLat eps) rings)),
          polys.any (fun rings => List.any rings (ringMoved oldLng oldLat eps)))
  if moved then some { a with geometry := newGeometry, updated_at := now }
  else none

/-- Close a coordinate ring by repeating the first point when the last
differs (`if (coords[0] != coords[len-1]) coords.push(coords[0])`). -/
def closeRing (coords : List Coord) : List Coord :=
  match coords with
  | [] => []
  | c :: _ =>
      match coords.getLast? with
      | some lastC => if lastC = c then coords else coords ++ [c]
      | none => coords

/-! ## Operation cores

Each core performs the operation's validations and in-memory mutations
and, on the success path, returns the mutated store together with the
assembled `HistoryEntry`/`ChangeSet` (or `none` of those for the two
early-success no-ops) and the return value; the shared tail —
`callBatchWrite` then `pushHistory` — is `commit` below, exactly the
source's ordering.  The outer `Option` models crashes/divergence. -/

abbrev CoreRes :=
  Option (Except VErr (AreaStore × Option (HistoryEntry × ChangeSet) × RetVal))

/-- `renameArea` (`editor.ts`). -/
def coreRename (cfg : Config) (now : Nat) (s : AreaStore)
    (areaId name : String) : CoreRes :=
  match AreaStore.getArea cfg.levels s areaId with
  | none => some (.error .areaNotFound)
  | some area =>
      if area.is_implicit then some (.error .areaNotFound)
      else
        let before := area
        let after := { area with display_name := name, updated_at := now }
        let s1 := s.updateArea after
        some (.ok (s1,
          some ({ created := [], deleted := [], modified := [⟨before, after⟩] },
                { created := [], deleted := [], modified := [after] }),
          .retArea after))

/-- `saveAsArea` (`editor.ts`). -/
def coreSaveAsArea (cfg : Config) (now fuel : Nat) (s : AreaStore)
    (draft : DraftShape) (name levelKey : String) (parentId : Option String)
    (freshId : String) : CoreRes :=
  if !draft.isClosed then some (.error .draftNotClosed)
  else if validateDraft draft ≠ [] then some (.error .invalidGeometry)
  else
    match getAreaLevel cfg.levels levelKey with
    | none => some (.error .areaLevelNotFound)
    | some level =>
        let resolved? : Except VErr (Option String) :=
          match parentId with
          | some pid =>
              match AreaStore.getArea cfg.levels s pid with
              | none => .error .areaNotFound
              | some parent =>
                  if some parent.level_key ≠ level.parent_level_key then
                    .error .levelMismatch
                  else .ok (some pid)
          | none =>
              if level.parent_level_key ≠ none then .error .levelMismatch
              else .ok none
        match resolved? with
        | .error e => some (.error e)
        | .ok resolvedParentId =>
            match draftToGeoJSON draft with
            | none => none
            | some geometry =>
                let newArea : Area :=
                  { id := freshId, display_name := name, level_key := levelKey
                    parent_id := resolvedParentId, geometry := geometry
                    metadata := none, created_at := now, updated_at := now
                    is_implicit := false }
                let s1 := s.addArea newArea
                match updateAnc cfg now fuel s1 resolvedParentId with
                | none => none
                | some (s2, ps) =>
                    some (.ok (s2,
                      some ({ created := [newArea], deleted := []
                              modified := ps },
                            { created := [newArea], deleted := []
                              modified := ps.map (·.after) }),
                      .retArea newArea))

/-- `deleteArea` (`editor.ts`). -/
def coreDeleteArea (cfg : Config) (now fuel : Nat) (s : AreaStore)
    (areaId : String) (cascade : Bool) : CoreRes :=
  match AreaStore.getArea cfg.levels s areaId with
  | none => some (.error .areaNotFound)
  | some area =>
      if area.is_implicit then some (.error .areaNotFound)
      else
        let explicitChildren := explicitChildrenOf cfg s areaId
        if !cascade ∧ explicitChildren.length > 0 then
          some (.error .areaHasChildren)
        else
          let toDelete? : Option (List Area) :=
            if cascade then collectDesc cfg s fuel [areaId] [] else some [area]
          match toDelete? with
          | none => none
          | some toDelete =>
              let s1 := toDelete.foldl (fun t a => t.deleteArea a.id) s
              match updateAnc cfg now fuel s1 area.parent_id with
              | none => none
              | some (s2, ps) =>
                  some (.ok (s2,
                    some ({ created := [], deleted := toDelete, modified := ps },
                          { created := [], deleted := toDelete.map (·.id)
                            modified := ps.map (·.after) }),
                    .retUnit))

/-- The per-item validation loop of `bulkCreate`, returning the first
failure. -/
def bulkValidate (cfg : Config) (s : AreaStore) :
    List AreaInput → Option VErr
  | [] => none
  | item :: rest =>
      match getAreaLevel cfg.levels item.level_key with
      | none => some .areaLevelNotFound
      | some level =>
          match item.parent_id with
          | some pid =>
              match AreaStore.getArea cfg.levels s pid with
              | none => some .areaNotFound
              | some parent =>
                  if some parent.level_key ≠ level.parent_level_key then
                    some .levelMismatch
                  else bulkValidate cfg s rest
          | none =>
              if level.parent_level_key ≠ none then some .levelMismatch
              else bulkValidate cfg s rest

/-- `bulkCreate` (`editor.ts`): validate every item fail-fast, then
create all areas in input order and propagate once per distinct
affected parent. -/
def coreBulkCreate (cfg : Config) (now fuel : Nat) (s : AreaStore)
    (items : List AreaInput) (freshIds : Nat → String) : CoreRes :=
  if items.length = 0 then some (.ok (s, none, .retAreas []))
  else
    match bulkValidate cfg s items with
    | some e => some (.error e)
    | none =>
        let newAreas : List Area := items.enum.map
          (fun ia =>
            { id := freshIds ia.1, display_name := ia.2.display_name
              level_key := ia.2.level_key, parent_id := ia.2.parent_id
              geometry := ia.2.geometry, metadata := ia.2.metadata
              created_at := now, updated_at := now, is_implicit := false })
        let s1 := newAreas.foldl AreaStore.addArea s
        let affectedParentIds := dedupFirst (items.filterMap (·.parent_id))
        match updateAncMany cfg now fuel affectedParentIds s1 [] with
        | none => none
        | some (s2, allModified) =>
            some (.ok (s2,
              some ({ created := newAreas, deleted := []
                      modified := allModified },
                    { created := newAreas, deleted := []
                      modified := allModified.map (·.after) }),
              .retAreas newAreas))

/-- `updateAreaGeometry` (`editor.ts`).  Note: unlike `renameArea` and
`deleteArea`, the source has no `is_implicit` guard here. -/
def coreUpdateAreaGeometry (cfg : Config) (now fuel : Nat) (s : AreaStore)
    (areaId : String) (draft : DraftShape) : CoreRes :=
  match AreaStore.getArea cfg.levels s areaId with
  | none => some (.error .areaNotFound)
  | some area =>
      if (explicitChildrenOf cfg s areaId).length > 0 then
        some (.error .areaHasChildren)
      else if !draft.isClosed then some (.error .draftNotClosed)
      else if validateDraft draft ≠ [] then some (.error .invalidGeometry)
      else
        match draftToGeoJSON draft with
        | none => none
        | some newGeometry =>
            let before := area
            let after := { area with geometry := newGeometry, updated_at := now }
            let s1 := s.updateArea after
            match updateAnc cfg now fuel s1 area.parent_id with
            | none => none
            | some (s2, ps) =>
                some (.ok (s2,
                  some ({ created := [], deleted := []
                          modified := ⟨before, after⟩ :: ps },
                        { created := [], deleted := []
                          modified := after :: ps.map (·.after) }),
                  .retArea after))

/-- `reparentArea` (`editor.ts`): validations, then swap `parent_id`;
no ancestor propagation. -/
def coreReparentArea (cfg : Config) (now fuel : Nat) (s : AreaStore)
    (areaId : String) (newParentId : Option String) : CoreRes :=
  match AreaStore.getArea cfg.levels s areaId with
  | none => some (.error .areaNotFound)
  | some area =>
      match getAreaLevel cfg.levels area.level_key with
      | none => none
      | some level =>
          let check? : Option (Except VErr Unit) :=
            match newParentId with
            | some np =>
                match AreaStore.getArea cfg.levels s np with
                | none => some (.error .areaNotFound)
                | some newParent =>
                    if some newParent.level_key ≠ level.parent_level_key then
                      some (.error .levelMismatch)
                    else
                      match isDesc cfg s np fuel [areaId] [] with
                      | none => none
                      | some true => some (.error .circularReference)
                      | some false => some (.ok ())
            | none =>
                if level.parent_level_key ≠ none then
                  some (.error .levelMismatch)
                else some (.ok ())
          match check? with
          | none => none
          | some (.error e) => some (.error e)
          | some (.ok ()) =>
              let oldParentCheck : Except VErr Unit :=
                match area.parent_id with
                | some oldP =>
                    if (explicitChildrenOf cfg s oldP).length = 1 then
                      .error .parentWouldBeEmpty
                    else .ok ()
                | none => .ok ()
              match oldParentCheck with
              | .error e => some (.error e)
              | .ok () =>
                  let before := area
                  let after :=
                    { area with parent_id := newParentId, updated_at := now }
                  let s1 := s.updateArea after
                  some (.ok (s1,
                    some ({ created := [], deleted := []
                            modified := [⟨before, after⟩] },
                          { created := [], deleted := []
                            modified := [after] }),
                    .retArea after))

/-- `buildMergeGeometry`: juxtapose all rings of both geometries. -/
def buildMergeGeometry (ga gb : Geometry) : Geometry :=
  let coordsA := match ga with
    | .polygon cs => [cs]
    | .multiPolygon cs => cs
  let coordsB := match gb with
    | .polygon cs => [cs]
    | .multiPolygon cs => cs
  match coordsA ++ coordsB with
  | [c] => .polygon c
  | all => .multiPolygon all

/-- `mergeArea` (`editor.ts`). -/
def coreMergeArea (cfg : Config) (now : Nat) (s : AreaStore)
    (areaId otherAreaId : String) : CoreRes :=
  match AreaStore.getArea cfg.levels s areaId with
  | none => some (.error .areaNotFound)
  | some area =>
      match AreaStore.getArea cfg.levels s otherAreaId with
      | none => some (.error .areaNotFound)
      | some otherArea =>
          if area.parent_id ≠ otherArea.parent_id then
            some (.error .levelMismatch)
          else if area.level_key ≠ otherArea.level_key then
            some (.error .levelMismatch)
          else if (explicitChildrenOf cfg s areaId).length > 0 then
            some (.error .areaHasChildren)
          else if (explicitChildrenOf cfg s otherAreaId).length > 0 then
            some (.error .areaHasChildren)
          else
            let mergedGeometry :=
              buildMergeGeometry area.geometry otherArea.geometry
            let survivingBefore := area
            let survivingAfter :=
              { area with geometry := mergedGeometry, updated_at := now }
            let s1 := s.updateArea survivingAfter
            let s2 := s1.deleteArea otherAreaId
            some (.ok (s2,
              some ({ created := [], deleted := [otherArea]
                      modified := [⟨survivingBefore, survivingAfter⟩] },
                    { created := [], deleted := [otherAreaId]
                      modified := [survivingAfter] }),
              .retArea survivingAfter))

/-- The per-sibling rewrite loop of `sharedEdgeMove`, threading the
store and collecting `{before, after}` pairs and updated areas. -/
def moveSiblings (now : Nat) (oldLng oldLat newLng newLat eps : ℚ) :
    List Area → AreaStore → List ModPair → List Area →
      AreaStore × List ModPair × List Area
  | [], s, pairs, upd => (s, pairs, upd)
  | sib :: rest, s, pairs, upd =>
      match moveVertexInArea now sib oldLng oldLat newLng newLat eps with
      | none => moveSiblings now oldLng oldLat newLng newLat eps rest s pairs upd
      | some updated =>
          moveSiblings now oldLng oldLat newLng newLat eps rest
            (s.updateArea updated) (pairs ++ [⟨sib, updated⟩]) (upd ++ [updated])

/-- The mutation tail of `sharedEdgeMove` once the moved vertex is
resolved: rewrite the coincident vertex in every real sibling, then
propagate ancestors. -/
def sharedEdgeTail (cfg : Config) (now fuel : Nat) (s : AreaStore)
    (area : Area) (currentVertex : Coord) (lat lng : ℚ) : CoreRes :=
  let eps := cfg.epsilonOpt.getD (1 / 10 ^ 8)
  let siblings : List Area :=
    match area.parent_id with
    | some p =>
        (AreaStore.getChildren cfg.levels s p).filter (fun c => !c.is_implicit)
    | none => [area]
  let msRes :=
    moveSiblings now currentVertex.1 currentVertex.2 lng lat eps siblings s [] []
  match updateAnc cfg now fuel msRes.1 area.parent_id with
  | none => none
  | some (s2, ps) =>
      let allModified := msRes.2.1 ++ ps
      some (.ok (s2,
        some ({ created := [], deleted := [], modified := allModified },
              { created := [], deleted := []
                modified := allModified.map (·.after) }),
        .retAreas (msRes.2.2 ++ ps.map (·.after))))

/-- `sharedEdgeMove` (`editor.ts`): validations and vertex resolution
(the `index % ringLen` normalisation on the exterior ring, closing
vertex excluded), then `sharedEdgeTail`. -/
def coreSharedEdgeMove (cfg : Config) (now fuel : Nat) (s : AreaStore)
    (areaId : String) (index : Int) (lat lng : ℚ) : CoreRes :=
  match AreaStore.getArea cfg.levels s areaId with
  | none => some (.error .areaNotFound)
  | some area =>
      if (explicitChildrenOf cfg s areaId).length > 0 then
        some (.error .areaHasChildren)
      else
        match getExteriorRing area.geometry with
        | none => none
        | some exteriorRing =>
            let ringLen := exteriorRing.length - 1
            if ringLen = 0 then none
            else
              let nIdx : Nat :=
                (((index % (ringLen : Int)) + ringLen) % ringLen).toNat
              match exteriorRing.get? nIdx with
              | none => none
              | some currentVertex =>
                  sharedEdgeTail cfg now fuel s area currentVertex lat lng

/-- `splitAsChildren` (`editor.ts`): implicit ids are resolved to the
real parent as target. -/
def coreSplitAsChildren (cfg : Config) (now fuel : Nat) (s : AreaStore)
    (areaId : String) (draft : DraftShape) (freshIds : Nat → String) :
    CoreRes :=
  match AreaStore.getArea cfg.levels s areaId with
  | none => some (.error .areaNotFound)
  | some area =>
      if draft.isClosed then some (.error .draftNotClosed)
      else if draft.points.length < 2 then some (.error .invalidGeometry)
      else
        let resolved? : Option (Except VErr (Area × String)) :=
          if area.is_implicit then
            match area.parent_id with
            | none => none
            | some pp =>
                match AreaStore.getArea cfg.levels s pp with
                | none => some (.error .areaNotFound)
                | some parent => some (.ok (parent, pp))
          else some (.ok (area, areaId))
        match resolved? with
        | none => none
        | some (.error e) => some (.error e)
        | some (.ok (targetArea, childParentId)) =>
            if (explicitChildrenOf cfg s targetArea.id).length > 0 then
              some (.error .areaHasChildren)
            else
              match getChildLevel cfg.levels targetArea.level_key with
              | none => some (.error .noChildLevel)
              | some childLevel =>
                  let cleanedPoints := removeWhiskers draft.points
                  if cleanedPoints.length < 2 then
                    some (.error .invalidGeometry)
                  else
                    let splitPolygons :=
                      cfg.splitFn targetArea.geometry cleanedPoints
                    if splitPolygons.length < 2 then
                      some (.ok (s, none, .retAreas []))
                    else
                      let newChildren : List Area := splitPolygons.enum.map
                        (fun gi =>
                          { id := freshIds gi.1, display_name := ""
                            level_key := childLevel.key
                            parent_id := some childParentId
                            geometry := gi.2, metadata := none
                            created_at := now, updated_at := now
                            is_implicit := false })
                      let s1 := newChildren.foldl AreaStore.addArea s
                      match updateAnc cfg now fuel s1 (some childParentId) with
                      | none => none
                      | some (s2, ps) =>
                          some (.ok (s2,
                            some ({ created := newChildren, deleted := []
                                    modified := ps },
                                  { created := newChildren, deleted := []
                                    modified := ps.map (·.after) }),
                            .retAreas newChildren))

/-- `splitReplace` (`editor.ts`). -/
def coreSplitReplace (cfg : Config) (now fuel : Nat) (s : AreaStore)
    (areaId : String) (draft : DraftShape) (freshIds : Nat → String) :
    CoreRes :=
  match AreaStore.getArea cfg.levels s areaId with
  | none => some (.error .areaNotFound)
  | some area =>
      if draft.isClosed then some (.error .draftNotClosed)
      else if draft.points.length < 2 then some (.error .invalidGeometry)
      else if (explicitChildrenOf cfg s areaId).length > 0 then
        some (.error .areaHasChildren)
      else
        let cleanedPoints := removeWhiskers draft.points
        if cleanedPoints.length < 2 then some (.error .invalidGeometry)
        else
          let splitPolygons := cfg.splitFn area.geometry cleanedPoints
          if splitPolygons.length < 2 then some (.ok (s, none, .retAreas []))
          else
            let newAreas : List Area := splitPolygons.enum.map
              (fun gi =>
                { id := freshIds gi.1, display_name := ""
                  level_key := area.level_key, parent_id := area.parent_id
                  geometry := gi.2, metadata := none
                  created_at := now, updated_at := now, is_implicit := false })
            let s1 := newAreas.foldl AreaStore.addArea s
            let s2 := s1.deleteArea areaId
            match updateAnc cfg now fuel s2 area.parent_id with
            | none => none
            | some (s3, ps) =>
                some (.ok (s3,
                  some ({ created := newAreas, deleted := [area]
                          modified := ps },
                        { created := newAreas, deleted := [areaId]
                          modified := ps.map (·.after) }),
                  .retAreas newAreas))

/-- `carveInnerChild` (`editor.ts`). -/
def coreCarveInnerChild (cfg : Config) (now fuel : Nat) (s : AreaStore)
    (areaId : String) (points : List Pt) (freshOuter freshInner : String) :
    CoreRes :=
  match AreaStore.getArea cfg.levels s areaId with
  | none => some (.error .areaNotFound)
  | some area =>
      if (explicitChildrenOf cfg s areaId).length > 0 then
        some (.error .areaHasChildren)
      else
        match getChildLevel cfg.levels area.level_key with
        | none => some (.error .noChildLevel)
        | some childLevel =>
            let uniquePoints := deduplicatePoints points
            if uniquePoints.length < 3 then some (.error .invalidGeometry)
            else
              let innerCoords :=
                closeRing (uniquePoints.map (fun p => (p.lng, p.lat)))
              let innerGeom : Geometry := .polygon [innerCoords]
              let outerGeom :=
                (cfg.kDifference area.geometry innerGeom).getD area.geometry
              let outer : Area :=
                { id := freshOuter, display_name := ""
                  level_key := childLevel.key, parent_id := some areaId
                  geometry := outerGeom, metadata := none
                  created_at := now, updated_at := now, is_implicit := false }
              let inner : Area :=
                { id := freshInner, display_name := ""
                  level_key := childLevel.key, parent_id := some areaId
                  geometry := innerGeom, metadata := none
                  created_at := now, updated_at := now, is_implicit := false }
              let s1 := (s.addArea outer).addArea inner
              match updateAnc cfg now fuel s1 (some areaId) with
              | none => none
              | some (s2, ps) =>
                  some (.ok (s2,
                    some ({ created := [outer, inner], deleted := []
                            modified := ps },
                          { created := [outer, inner], deleted := []
                            modified := ps.map (·.after) }),
                    .retPair outer inner))

/-- `punchHole` (`editor.ts`). -/
def corePunchHole (cfg : Config) (now fuel : Nat) (s : AreaStore)
    (areaId : String) (holePath : List Pt) (freshInner : String) : CoreRes :=
  match AreaStore.getArea cfg.levels s areaId with
  | none => some (.error .areaNotFound)
  | some area =>
      if (explicitChildrenOf cfg s areaId).length > 0 then
        some (.error .areaHasChildren)
      else
        let uniquePoints := deduplicatePoints holePath
        if uniquePoints.length < 3 then some (.error .invalidGeometry)
        else
          let holeCoords :=
            closeRing (uniquePoints.map (fun p => (p.lng, p.lat)))
          let innerGeom : Geometry := .polygon [holeCoords]
          let donutGeom :=
            (cfg.kDifference area.geometry innerGeom).getD area.geometry
          let beforeArea := area
          let donut := { area with geometry := donutGeom, updated_at := now }
          let s1 := s.updateArea donut
          let inner : Area :=
            { id := freshInner, display_name := ""
              level_key := area.level_key, parent_id := area.parent_id
              geometry := innerGeom, metadata := none
              created_at := now, updated_at := now, is_implicit := false }
          let s2 := s1.addArea inner
          match updateAnc cfg now fuel s2 area.parent_id with
          | none => none
          | some (s3, ps) =>
              some (.ok (s3,
                some ({ created := [inner], deleted := []
                        modified := ⟨beforeArea, donut⟩ :: ps },
                      { created := [inner], deleted := []
                        modified := donut :: ps.map (·.after) }),
                .retPair donut inner))

/-- `expandWithChild` (`editor.ts`). -/
def coreExpandWithChild (cfg : Config) (now fuel : Nat) (s : AreaStore)
    (parentAreaId : String) (outerPath : List Pt) (freshChild : String) :
    CoreRes :=
  match AreaStore.getArea cfg.levels s parentAreaId with
  | none => some (.error .areaNotFound)
  | some area =>
      match getChildLevel cfg.levels area.level_key with
      | none => some (.error .noChildLevel)
      | some childLevel =>
          if outerPath.length < 2 then some (.error .invalidGeometry)
          else
            let outerCoords :=
              closeRing (outerPath.map (fun p => (p.lng, p.lat)))
            let childGeom : Geometry := .polygon [outerCoords]
            let newParentGeom :=
              (cfg.kUnion area.geometry childGeom).getD area.geometry
            let beforeParent := area
            let child : Area :=
              { id := freshChild, display_name := ""
                level_key := childLevel.key, parent_id := some parentAreaId
                geometry := childGeom, metadata := none
                created_at := now, updated_at := now, is_implicit := false }
            let s1 := s.addArea child
            let updatedParent :=
              { area with geometry := newParentGeom, updated_at := now }
            let s2 := s1.updateArea updatedParent
            match updateAnc cfg now fuel s2 area.parent_id with
            | none => none
            | some (s3, ps) =>
                some (.ok (s3,
                  some ({ created := [child], deleted := []
                          modified := ⟨beforeParent, updatedParent⟩ :: ps },
                        { created := [child], deleted := []
                          modified := updatedParent :: ps.map (·.after) }),
                  .retPair updatedParent child))

/-! ## Operations, the commit tail, and runs -/

/-- An edit operation together with its external inputs (fresh
identifiers standing for `crypto.randomUUID()` results). -/
inductive Op where
  | rename (areaId name : String)
  | saveAsArea (draft : DraftShape) (name levelKey : String)
      (parentId : Option String) (freshId : String)
  | deleteArea (areaId : String) (cascade : Bool)
  | bulkCreate (items : List AreaInput) (freshIds : Nat → String)
  | updateAreaGeometry (areaId : String) (draft : DraftShape)
  | reparentArea (areaId : String) (newParentId : Option String)
  | mergeArea (areaId otherAreaId : String)
  | sharedEdgeMove (areaId : String) (index : Int) (lat lng : ℚ)
  | splitAsChildren (areaId : String) (draft : DraftShape)
      (freshIds : Nat → String)
  | splitReplace (areaId : String) (draft : DraftShape)
      (freshIds : Nat → String)
  | carveInnerChild (areaId : String) (points : List Pt)
      (freshOuter freshInner : String)
  | punchHole (areaId : String) (holePath : List Pt) (freshInner : String)
  | expandWithChild (parentAreaId : String) (outerPath : List Pt)
      (freshChild : String)

/-- One editor call: the operation, the wall-clock reading, the fuel
bound standing for termination of the source's unbounded loops, and
whether the adapter's `batchWrite` succeeds on this call. -/
structure Step where
  op : Op
  now : Nat
  fuel : Nat
  storageOk : Bool

/-- Dispatch to the operation core. -/
def opCore (cfg : Config) (st : Step) (s : AreaStore) : CoreRes :=
  match st.op with
  | .rename areaId name => coreRename cfg st.now s areaId name
  | .saveAsArea draft name levelKey parentId freshId =>
      coreSaveAsArea cfg st.now st.fuel s draft name levelKey parentId freshId
  | .deleteArea areaId cascade =>
      coreDeleteArea cfg st.now st.fuel s areaId cascade
  | .bulkCreate items freshIds =>
      coreBulkCreate cfg st.now st.fuel s items freshIds
  | .updateAreaGeometry areaId draft =>
      coreUpdateAreaGeometry cfg st.now st.fuel s areaId draft
  | .reparentArea areaId newParentId =>
      coreReparentArea cfg st.now st.fuel s areaId newParentId
  | .mergeArea areaId otherAreaId =>
      coreMergeArea cfg st.now s areaId otherAreaId
  | .sharedEdgeMove areaId index lat lng =>
      coreSharedEdgeMove cfg st.now st.fuel s areaId index lat lng
  | .splitAsChildren areaId draft freshIds =>
      coreSplitAsChildren cfg st.now st.fuel s areaId draft freshIds
  | .splitReplace areaId draft freshIds =>
      coreSplitReplace cfg st.now st.fuel s areaId draft freshIds
  | .carveInnerChild areaId points freshOuter freshInner =>
      coreCarveInnerChild cfg st.now st.fuel s areaId points freshOuter
        freshInner
  | .punchHole areaId holePath freshInner =>
      corePunchHole cfg st.now st.fuel s areaId holePath freshInner
  | .expandWithChild parentAreaId outerPath freshChild =>
      coreExpandWithChild cfg st.now st.fuel s parentAreaId outerPath
        freshChild

/-- `pushHistory`: clear the redo stack, push the entry, and drop the
oldest entry (`shift`) when over `maxUndoSteps`. -/
def trimPush (maxUndoSteps : Nat) (stack : List HistoryEntry)
    (entry : HistoryEntry) : List HistoryEntry :=
  let stack' := stack ++ [entry]
  if stack'.length > maxUndoSteps then stack'.tail else stack'

/-- The shared operation tail: the store is already mutated; the change
set goes to `batchWrite` (logged in `writes`), and only when that call
succeeds is the history entry pushed — matching the source order
`await this.callBatchWrite(changeSet); this.pushHistory(historyEntry)`. -/
def commit (cfg : Config) (storageOk : Bool) (est : EState) (s' : AreaStore)
    (entry : HistoryEntry) (cs : ChangeSet) (ret : RetVal) :
    EState × Except EditErr RetVal :=
  let est1 := { est with store := s', writes := est.writes ++ [cs] }
  if storageOk then
    ({ est1 with
        redoStack := []
        undoStack := trimPush cfg.maxUndoSteps est1.undoStack entry },
      .ok ret)
  else (est1, .error .storage)

/-- Run a single editor call.  Validation errors leave the state
untouched; `none` models a crash or divergence. -/
def runStep (cfg : Config) (est : EState) (st : Step) :
    Option (EState × Except EditErr RetVal) :=
  match opCore cfg st est.store with
  | none => none
  | some (.error e) => some (est, .error (.v e))
  | some (.ok (s', none, ret)) => some ({ est with store := s' }, .ok ret)
  | some (.ok (s', some (entry, cs), ret)) =>
      some (commit cfg st.storageOk est s' entry cs ret)

/-- Run a sequence of editor calls, requiring every one to succeed. -/
def runSteps (cfg : Config) : List Step → EState → Option EState
  | [], est => some est
  | st :: rest, est =>
      match runStep cfg est st with
      | some (est', .ok _) => runSteps cfg rest est'
      | _ => none

/-! ## Undo / redo (`editor.ts`) -/

/-- The reverse application of a history entry to the store: delete
each `created`, re-insert each `deleted`, restore each modified
`before`; also returns the affected-areas list in the source's order. -/
def applyUndo (e : HistoryEntry) (s : AreaStore) : AreaStore × List Area :=
  let s1 := e.created.foldl (fun t a => t.deleteArea a.id) s
  let s2 := e.deleted.foldl AreaStore.addArea s1
  let s3 := e.modified.foldl (fun t m => t.updateArea m.before) s2
  (s3, e.created ++ e.deleted ++ e.modified.map (·.before))

/-- The forward application: re-insert `created`, delete `deleted`,
apply each modified `after`. -/
def applyRedo (e : HistoryEntry) (s : AreaStore) : AreaStore × List Area :=
  let s1 := e.created.foldl AreaStore.addArea s
  let s2 := e.deleted.foldl (fun t a => t.deleteArea a.id) s1
  let s3 := e.modified.foldl (fun t m => t.updateArea m.after) s2
  (s3, e.created ++ e.deleted ++ e.modified.map (·.after))

/-- `undo()`: pop the newest entry, apply its reverse, move it to the
redo stack; the empty-stack call returns `[]` and changes nothing. -/
def undo (est : EState) : EState × List Area :=
  match est.undoStack.getLast? with
  | none => (est, [])
  | some e =>
      let (s', affected) := applyUndo e est.store
      ({ est with
          store := s'
          undoStack := est.undoStack.dropLast
          redoStack := est.redoStack ++ [e] },
        affected)

/-- `redo()`: symmetric to `undo()`. -/
def redo (est : EState) : EState × List Area :=
  match est.redoStack.getLast? with
  | none => (est, [])
  | some e =>
      let (s', affected) := applyRedo e est.store
      ({ est with
          store := s'
          redoStack := est.redoStack.dropLast
          undoStack := est.undoStack ++ [e] },
        affected)

/-- `undo()` called `n` times (results discarded). -/
def undoN : Nat → EState → EState
  | 0, est => est
  | n + 1, est => (undo (undoN n est)).1

/-- `redo()` called `n` times (results discarded). -/
def redoN : Nat → EState → EState
  | 0, est => est
  | n + 1, est => (redo (redoN n est)).1

/-! ## Write sequences

A primitive store write: an upsert of a record (under its own id) or a
deletion of an id.  Both the in-place mutations of each operation and
the forward (redo) application of its history entry are such sequences;
the round-trip results below rest on the two being pointwise equal. -/

inductive Write where
  | put (a : Area)
  | delId (i : String)
deriving DecidableEq, Repr

namespace Write

/-- The primary-map key a write touches. -/
def key : Write → String
  | .put a => a.id
  | .delId i => i

/-- The primary-map value a write leaves at its key. -/
def val : Write → Option Area
  | .put a => some a
  | .delId _ => none

end Write

/-- Apply a write sequence to a store, left to right. -/
def applyWrites (ws : List Write) (s : AreaStore) : AreaStore :=
  ws.foldl
    (fun t w => match w with
      | .put a => t.updateArea a
      | .delId i => t.deleteArea i) s

/-- The last value written at key `x`, when some write touches `x`. -/
def lastWrite (ws : List Write) (x : String) : Option (Option Area) :=
  match ws with
  | [] => none
  | w :: rest =>
      match lastWrite rest x with
      | some v => some v
      | none => if w.key = x then some w.val else none

/-- The forward write sequence of a history entry: created upserts,
deleted-id deletions, modified after-image upserts — the order of
`redo()`. -/
def writesOf (e : HistoryEntry) : List Write :=
  e.created.map .put ++ e.deleted.map (fun a => .delId a.id) ++
    e.modified.map (fun m => .put m.after)

/-- All modified pairs of an entry keep the id fixed (true of every
entry the editor constructs). -/
def idsOK (e : HistoryEntry) : Prop :=
  ∀ m ∈ e.modified, m.before.id = m.after.id

theorem applyWrites_append (ws1 ws2 : List Write) (s : AreaStore) :
    applyWrites (ws1 ++ ws2) s = applyWrites ws2 (applyWrites ws1 s) := by
  simp [applyWrites, List.foldl_append]

theorem keyCoherent_applyWrites (ws : List Write) (s : AreaStore)
    (hs : AreaStore.KeyCoherent s) :
    AreaStore.KeyCoherent (applyWrites ws s) := by
  induction ws generalizing s with
  | nil => exact hs
  | cons w rest ih =>
      cases w with
      | put a =>
          exact ih _ (AreaStore.keyCoherent_updateArea s hs a)
      | delId i =>
          exact ih _ (AreaStore.keyCoherent_deleteArea s hs i)

theorem find_applyWrites (ws : List Write) (s : AreaStore)
    (hs : AreaStore.KeyCoherent s) (x : String) :
    (applyWrites ws s).find x =
      (lastWrite ws x).getD (s.find x) := by
  induction ws generalizing s with
  | nil => simp [applyWrites, lastWrite]
  | cons w rest ih =>
      have hstep : AreaStore.KeyCoherent
          (applyWrites [w] s) := keyCoherent_applyWrites [w] s hs
      have h1 : applyWrites (w :: rest) s = applyWrites rest (applyWrites [w] s) := by
        simpa using applyWrites_append [w] rest s
      rw [h1, ih _ hstep]
      cases hlw : lastWrite rest x with
      | some v => simp [lastWrite, hlw]
      | none =>
          simp only [lastWrite, hlw]
          cases w with
          | put a =>
              simp only [applyWrites, List.foldl]
              rw [AreaStore.find_updateArea s hs a x]
              by_cases hx : x = a.id
              · simp [hx, Write.key, Write.val]
              · have hax : ¬ a.id = x := fun hh => hx hh.symm
                simp [hx, Write.key, Write.val, hax]
          | delId i =>
              simp only [applyWrites, List.foldl]
              rw [AreaStore.find_deleteArea s hs i x]
              by_cases hx : x = i
              · simp [hx, Write.key, Write.val]
              · have hax : ¬ i = x := fun hh => hx hh.symm
                simp [hx, Write.key, Write.val, hax]

/-- A write sequence leaves keys it does not touch unchanged. -/
theorem find_applyWrites_untouched (ws : List Write) (s : AreaStore)
    (hs : AreaStore.KeyCoherent s) (x : String)
    (hx : lastWrite ws x = none) :
    (applyWrites ws s).find x = s.find x := by
  rw [find_applyWrites ws s hs x, hx]; rfl

/-- On touched keys the result of a write sequence is independent of
the store it is applied to. -/
theorem find_applyWrites_touched (ws : List Write) (s t : AreaStore)
    (hs : AreaStore.KeyCoherent s) (ht : AreaStore.KeyCoherent t)
    (x : String) (v : Option Area) (hx : lastWrite ws x = some v) :
    (applyWrites ws s).find x = (applyWrites ws t).find x := by
  rw [find_applyWrites ws s hs x, find_applyWrites ws t ht x, hx]
  simp [Option.getD]

/-- Pointwise equality of primary maps: same id set, same records —
the state-equality notion of the undo/redo specification. -/
def FindEq (s t : AreaStore) : Prop := ∀ x, s.find x = t.find x

theorem findEq_refl (s : AreaStore) : FindEq s s := fun _ => rfl

theorem applyWrites_congr (ws : List Write) (s t : AreaStore)
    (hs : AreaStore.KeyCoherent s) (ht : AreaStore.KeyCoherent t)
    (h : FindEq s t) : FindEq (applyWrites ws s) (applyWrites ws t) := by
  intro x
  rw [find_applyWrites ws s hs x, find_applyWrites ws t ht x, h x]

theorem keyCoherent_of_findEq (s t : AreaStore)
    (hs : AreaStore.KeyCoherent s) (h : FindEq t s) :
    AreaStore.KeyCoherent t := by
  intro k a ha
  exact hs k a ((h k) ▸ ha)

/-- Folding `deleteArea` over a list is the `delId` write sequence. -/
theorem foldl_deleteArea_eq (l : List Area) (s : AreaStore) :
    l.foldl (fun t a => t.deleteArea a.id) s =
      applyWrites (l.map (fun a => .delId a.id)) s := by
  rw [applyWrites, List.foldl_map]

/-- Folding modified-`after` updates is the corresponding `put`
sequence. -/
theorem foldl_updateAfter_eq (l : List ModPair) (s : AreaStore) :
    l.foldl (fun t m => t.updateArea m.after) s =
      applyWrites (l.map (fun m => .put m.after)) s := by
  rw [applyWrites, List.foldl_map]

theorem foldl_updateBefore_eq (l : List ModPair) (s : AreaStore) :
    l.foldl (fun t m => t.updateArea m.before) s =
      applyWrites (l.map (fun m => .put m.before)) s := by
  rw [applyWrites, List.foldl_map]

theorem keyCoherent_addArea (s : AreaStore) (hs : AreaStore.KeyCoherent s)
    (a : Area) : AreaStore.KeyCoherent (s.addArea a) :=
  AreaStore.keyCoherent_indexArea s hs a

/-- Folding `addArea` over a list agrees pointwise with the `put` write
sequence (on key-coherent stores `addArea` and `updateArea` have the
same primary-map effect). -/
theorem foldl_addArea_findEq (l : List Area) (s : AreaStore)
    (hs : AreaStore.KeyCoherent s) :
    FindEq (l.foldl AreaStore.addArea s) (applyWrites (l.map .put) s) := by
  induction l generalizing s with
  | nil => exact findEq_refl s
  | cons a rest ih =>
      intro x
      have h1 : FindEq (s.addArea a) (s.updateArea a) := by
        intro y
        rw [AreaStore.find_addArea, AreaStore.find_updateArea s hs]
      have hca : AreaStore.KeyCoherent (s.addArea a) :=
        keyCoherent_addArea s hs a
      have hcu : AreaStore.KeyCoherent (s.updateArea a) :=
        AreaStore.keyCoherent_updateArea s hs a
      calc (List.foldl AreaStore.addArea (s.addArea a) rest).find x
          = (applyWrites (rest.map .put) (s.addArea a)).find x := ih _ hca x
        _ = (applyWrites (rest.map .put) (s.updateArea a)).find x :=
            applyWrites_congr _ _ _ hca hcu h1 x
        _ = (applyWrites ((a :: rest).map .put) s).find x := by
            simp [applyWrites, List.foldl]

theorem keyCoherent_foldl_addArea (l : List Area) (s : AreaStore)
    (hs : AreaStore.KeyCoherent s) :
    AreaStore.KeyCoherent (l.foldl AreaStore.addArea s) := by
  induction l generalizing s with
  | nil => exact hs
  | cons a rest ih => exact ih _ (keyCoherent_addArea s hs a)

/-- The store component of `applyRedo` agrees pointwise with the
forward write sequence of the entry. -/
theorem applyRedo_findEq (e : HistoryEntry) (s : AreaStore)
    (hs : AreaStore.KeyCoherent s) :
    FindEq (applyRedo e s).1 (applyWrites (writesOf e) s) := by
  intro x
  have h1 : AreaStore.KeyCoherent (e.created.foldl AreaStore.addArea s) :=
    keyCoherent_foldl_addArea _ _ hs
  have hputco : AreaStore.KeyCoherent (applyWrites (e.created.map .put) s) :=
    keyCoherent_applyWrites _ _ hs
  have h2 : FindEq (e.created.foldl AreaStore.addArea s)
      (applyWrites (e.created.map .put) s) := foldl_addArea_findEq _ _ hs
  calc (applyRedo e s).1.find x
      = (e.modified.foldl (fun t m => t.updateArea m.after)
          (e.deleted.foldl (fun t a => t.deleteArea a.id)
            (e.created.foldl AreaStore.addArea s))).find x := rfl
    _ = (applyWrites (e.modified.map (fun m => .put m.after))
          (applyWrites (e.deleted.map (fun a => .delId a.id))
            (e.created.foldl AreaStore.addArea s))).find x := by
        rw [foldl_updateAfter_eq, foldl_deleteArea_eq]
    _ = (applyWrites (e.deleted.map (fun a => .delId a.id) ++
          e.modified.map (fun m => .put m.after))
            (e.created.foldl AreaStore.addArea s)).find x := by
        rw [applyWrites_append]
    _ = (applyWrites (e.deleted.map (fun a => .delId a.id) ++
          e.modified.map (fun m => .put m.after))
            (applyWrites (e.created.map .put) s)).find x :=
        applyWrites_congr _ _ _ h1 hputco h2 x
    _ = (applyWrites (writesOf e) s).find x := by
        simp [writesOf, applyWrites_append]

/-- The reverse write sequence applied by `undo()`. -/
def undoWrites (e : HistoryEntry) : List Write :=
  e.created.map (fun a => .delId a.id) ++ e.deleted.map .put ++
    e.modified.map (fun m => .put m.before)

theorem applyUndo_findEq (e : HistoryEntry) (s : AreaStore)
    (hs : AreaStore.KeyCoherent s) :
    FindEq (applyUndo e s).1 (applyWrites (undoWrites e) s) := by
  intro x
  have h0 : e.created.foldl (fun t a => t.deleteArea a.id) s =
      applyWrites (e.created.map (fun a => .delId a.id)) s :=
    foldl_deleteArea_eq _ _
  have h1 : AreaStore.KeyCoherent
      (e.deleted.foldl AreaStore.addArea
        (applyWrites (e.created.map (fun a => .delId a.id)) s)) :=
    keyCoherent_foldl_addArea _ _ (keyCoherent_applyWrites _ _ hs)
  have hputco : AreaStore.KeyCoherent
      (applyWrites (e.deleted.map .put)
        (applyWrites (e.created.map (fun a => .delId a.id)) s)) :=
    keyCoherent_applyWrites _ _ (keyCoherent_applyWrites _ _ hs)
  have h2 : FindEq
      (e.deleted.foldl AreaStore.addArea
        (applyWrites (e.created.map (fun a => .delId a.id)) s))
      (applyWrites (e.deleted.map .put)
        (applyWrites (e.created.map (fun a => .delId a.id)) s)) :=
    foldl_addArea_findEq _ _ (keyCoherent_applyWrites _ _ hs)
  calc (applyUndo e s).1.find x
      = (e.modified.foldl (fun t m => t.updateArea m.before)
          (e.deleted.foldl AreaStore.addArea
            (e.created.foldl (fun t a => t.deleteArea a.id) s))).find x := rfl
    _ = (applyWrites (e.modified.map (fun m => .put m.before))
          (e.deleted.foldl AreaStore.addArea
            (applyWrites (e.created.map (fun a => .delId a.id)) s))).find x := by
        rw [foldl_updateBefore_eq, h0]
    _ = (applyWrites (e.modified.map (fun m => .put m.before))
          (applyWrites (e.deleted.map .put)
            (applyWrites (e.created.map (fun a => .delId a.id)) s))).find x :=
        applyWrites_congr _ _ _ h1 hputco h2 x
    _ = (applyWrites (undoWrites e) s).find x := by
        simp [undoWrites, applyWrites_append]

/-- Every key the reverse sequence touches is touched by the forward
sequence (given `idsOK`). -/
theorem undoWrites_keys_sub (e : HistoryEntry) (hids : idsOK e) (x : String)
    (hx : lastWrite (writesOf e) x = none) :
    lastWrite (undoWrites e) x = none := by
  have main : ∀ ws : List Write, lastWrite ws x = none ↔
      ∀ w ∈ ws, ¬ w.key = x := by
    intro ws
    induction ws with
    | nil => simp [lastWrite]
    | cons w rest ih =>
        constructor
        · intro h
          cases hr : lastWrite rest x with
          | some v => simp [lastWrite, hr] at h
          | none =>
              simp only [lastWrite, hr] at h
              intro w' hw'
              rcases List.mem_cons.mp hw' with h1 | h2
              · subst h1
                by_contra hk
                simp [hk] at h
              · exact (ih.mp hr) w' h2
        · intro h
          have hr : lastWrite rest x = none :=
            ih.mpr (fun w' hw' => h w' (List.mem_cons_of_mem _ hw'))
          simp [lastWrite, hr, h w (List.mem_cons_self _ _)]
  rw [main] at hx ⊢
  intro w hw
  rw [undoWrites] at hw
  rcases List.mem_append.mp hw with hw1 | hw2
  · rcases List.mem_append.mp hw1 with hc | hd
    · rcases List.mem_map.mp hc with ⟨a, ha, rfl⟩
      exact hx (.put a) (by
        rw [writesOf]
        exact List.mem_append.mpr (.inl (List.mem_append.mpr
          (.inl (List.mem_map.mpr ⟨a, ha, rfl⟩)))))
    · rcases List.mem_map.mp hd with ⟨a, ha, rfl⟩
      have := hx (.delId a.id) (by
        rw [writesOf]
        exact List.mem_append.mpr (.inl (List.mem_append.mpr
          (.inr (List.mem_map.mpr ⟨a, ha, rfl⟩)))))
      simpa [Write.key] using this
  · rcases List.mem_map.mp hw2 with ⟨m, hm, rfl⟩
    have := hx (.put m.after) (by
      rw [writesOf]
      exact List.mem_append.mpr (.inr (List.mem_map.mpr ⟨m, hm, rfl⟩)))
    intro hk
    exact this (by simpa [Write.key, ← hids m hm] using hk)

/-! ## The ancestor walk and the operation loops as write sequences -/

/-- The put-sequence of a modified-pair list. -/
def pairPuts (ps : List ModPair) : List Write :=
  ps.map (fun p => .put p.after)

theorem walk_triv (a b : AreaStore) (ps : List ModPair)
    (h : a = b ∧ ps = []) :
    b = applyWrites (pairPuts ps) a ∧ ∀ p ∈ ps, p.before.id = p.after.id := by
  obtain ⟨rfl, rfl⟩ := h
  exact ⟨rfl, by intro p hp; cases hp⟩

/-- `updateAncestorGeometries` performs exactly the after-image upserts
of the pairs it returns, in order; every pair keeps its id. -/
theorem updateAnc_spec (cfg : Config) (now : Nat) :
    ∀ (fuel : Nat) (s : AreaStore) (start : Option String)
      (s' : AreaStore) (ps : List ModPair),
      updateAnc cfg now fuel s start = some (s', ps) →
      s' = applyWrites (pairPuts ps) s ∧
        ∀ p ∈ ps, p.before.id = p.after.id := by
  intro fuel
  induction fuel with
  | zero =>
      intro s start s' ps h
      cases start with
      | none =>
          simp [updateAnc] at h
          exact walk_triv s s' ps h
      | some cid => simp [updateAnc] at h
  | succ fuel ih =>
      intro s start s' ps h
      cases start with
      | none =>
          simp [updateAnc] at h
          exact walk_triv s s' ps h
      | some cid =>
          rw [updateAnc] at h
          split at h
          · simp at h; exact walk_triv s s' ps h
          · split at h
            · simp at h; exact walk_triv s s' ps h
            · dsimp only at h
              split at h
              · exact ih _ _ _ _ h
              · split at h
                · exact absurd h (by simp)
                · rename_i anc hga himp hch pr hrec
                  simp at h
                  obtain ⟨h1, h2⟩ := h
                  obtain ⟨hfe, hid⟩ := ih _ _ _ _ hrec
                  subst h2
                  constructor
                  · rw [← h1, hfe]
                    simp [pairPuts, applyWrites]
                  · intro p hp
                    rcases List.mem_cons.mp hp with hp1 | hp2
                    · subst hp1; rfl
                    · exact hid p hp2

/-- `updateAncMany` concatenates walk pair lists and performs exactly
their after-image upserts. -/
theorem updateAncMany_spec (cfg : Config) (now fuel : Nat) :
    ∀ (pids : List String) (s : AreaStore) (acc : List ModPair)
      (s' : AreaStore) (all : List ModPair),
      updateAncMany cfg now fuel pids s acc = some (s', all) →
      ∃ nps, all = acc ++ nps ∧ s' = applyWrites (pairPuts nps) s ∧
        ∀ p ∈ nps, p.before.id = p.after.id := by
  intro pids
  induction pids with
  | nil =>
      intro s acc s' all h
      simp [updateAncMany] at h
      obtain ⟨rfl, rfl⟩ := h
      exact ⟨[], by simp, rfl, by intro p hp; cases hp⟩
  | cons pid rest ih =>
      intro s acc s' all h
      rw [updateAncMany] at h
      cases hw : updateAnc cfg now fuel s (some pid) with
      | none => rw [hw] at h; simp at h
      | some pr =>
          rw [hw] at h
          obtain ⟨hfe, hid⟩ := updateAnc_spec cfg now fuel s (some pid)
            pr.1 pr.2 (by rw [hw])
          obtain ⟨nps, hall, hfe2, hid2⟩ := ih pr.1 (acc ++ pr.2) s' all h
          refine ⟨pr.2 ++ nps, by simp [hall], ?_, ?_⟩
          · rw [hfe2, hfe, pairPuts, pairPuts, pairPuts, List.map_append,
              applyWrites_append]
          · intro p hp
            rcases List.mem_append.mp hp with h1 | h2
            · exact hid p h1
            · exact hid2 p h2

/-- `moveVertexInArea` never changes the area's id. -/
theorem moveVertexInArea_id (now : Nat) (a : Area)
    (oldLng oldLat newLng newLat eps : ℚ) (u : Area)
    (h : moveVertexInArea now a oldLng oldLat newLng newLat eps = some u) :
    u.id = a.id := by
  obtain ⟨i, dn, lk, pid, geom, md, ca, ua, imp⟩ := a
  cases geom with
  | polygon rings =>
      rw [moveVertexInArea] at h
      dsimp only at h
      split at h
      · simp only [Option.some.injEq] at h
        rw [← h]
      · cases h
  | multiPolygon polys =>
      rw [moveVertexInArea] at h
      dsimp only at h
      split at h
      · simp only [Option.some.injEq] at h
        rw [← h]
      · cases h

/-- The `sharedEdgeMove` sibling loop: the final store is exactly the
after-image upserts of the pairs appended past the accumulator, and
every pair keeps its id. -/
theorem moveSiblings_spec (now : Nat) (oldLng oldLat newLng newLat eps : ℚ) :
    ∀ (sibs : List Area) (s : AreaStore) (pairs : List ModPair)
      (upd : List Area) (sOut : AreaStore) (pairsOut : List ModPair)
      (updOut : List Area),
      moveSiblings now oldLng oldLat newLng newLat eps sibs s pairs upd =
        (sOut, pairsOut, updOut) →
      ∃ nps, pairsOut = pairs ++ nps ∧
        sOut = applyWrites (pairPuts nps) s ∧
        ∀ p ∈ nps, p.before.id = p.after.id := by
  intro sibs
  induction sibs with
  | nil =>
      intro s pairs upd sOut pairsOut updOut h
      simp [moveSiblings] at h
      exact ⟨[], by simp [h.2.1.symm], by simp [pairPuts, applyWrites, h.1.symm],
        by intro p hp; cases hp⟩
  | cons sib rest ih =>
      intro s pairs upd sOut pairsOut updOut h
      rw [moveSiblings] at h
      cases hmv : moveVertexInArea now sib oldLng oldLat newLng newLat eps with
      | none =>
          rw [hmv] at h
          exact ih s pairs upd sOut pairsOut updOut h
      | some updated =>
          rw [hmv] at h
          obtain ⟨nps, h1, h2, h3⟩ := ih (s.updateArea updated)
            (pairs ++ [⟨sib, updated⟩]) (upd ++ [updated]) sOut pairsOut
            updOut h
          refine ⟨⟨sib, updated⟩ :: nps, by simp [h1], ?_, ?_⟩
          · rw [h2]
            simp [pairPuts, applyWrites]
          · intro p hp
            rcases List.mem_cons.mp hp with hp1 | hp2
            · subst hp1
              exact (moveVertexInArea_id now sib _ _ _ _ _ updated hmv).symm
            · exact h3 p hp2

/-! ## The implicit-id round trip and `getArea` id coherence -/

theorem lastSep_spec (cs : List Char) (i : Nat) (h : lastSep cs = some i) :
    i < cs.length ∧ cs.get? i = some '_' ∧ cs.get? (i + 1) = some '_' := by
  rw [lastSep] at h
  have hmem : i ∈ (List.range cs.length).filter
      (fun j => decide (cs.get? j = some '_' ∧ cs.get? (j + 1) = some '_')) := by
    obtain ⟨hne, heq⟩ := List.mem_getLast?_eq_getLast h
    rw [heq]
    exact List.getLast_mem hne
  obtain ⟨hrange, hpred⟩ := List.mem_filter.mp hmem
  have := of_decide_eq_true hpred
  exact ⟨List.mem_range.mp hrange, this.1, this.2⟩

theorem lastSep_decomp (cs : List Char) (i : Nat) (h : lastSep cs = some i) :
    cs.take i ++ '_' :: '_' :: cs.drop (i + 2) = cs := by
  obtain ⟨hlen, h1, h2⟩ := lastSep_spec cs i h
  obtain ⟨hlen1, hg1⟩ := List.get?_eq_some.mp h1
  obtain ⟨hlen2, hg2⟩ := List.get?_eq_some.mp h2
  have hd1 : cs.drop i = cs.get ⟨i, hlen1⟩ :: cs.drop (i + 1) := by
    rw [List.drop_eq_getElem_cons hlen1]; rfl
  have hd2 : cs.drop (i + 1) = cs.get ⟨i + 1, hlen2⟩ :: cs.drop (i + 2) := by
    rw [List.drop_eq_getElem_cons hlen2]; rfl
  conv_rhs => rw [← List.take_append_drop i cs]
  rw [hd1, hd2, hg1, hg2]

theorem parseImplicitId_make (id p l : String)
    (h : parseImplicitId id = some (p, l)) : makeImplicitId p l = id := by
  rw [parseImplicitId] at h
  dsimp only at h
  split at h
  · rename_i hpre
    split at h
    · cases h
    · rename_i i hsep
      split at h
      · cases h
      · rename_i hne
        simp only [Option.some.injEq, Prod.mk.injEq] at h
        obtain ⟨hp, hl⟩ := h
        have hrest := lastSep_decomp (id.toList.drop 12) i hsep
        calc makeImplicitId p l
            = String.mk ((("__implicit__".toList ++
                (id.toList.drop 12).take i) ++ "__".toList) ++
                  (id.toList.drop 12).drop (i + 2)) := by
              rw [makeImplicitId, ← hp, ← hl]
              rfl
          _ = String.mk ("__implicit__".toList ++
                ((id.toList.drop 12).take i ++
                  '_' :: '_' :: (id.toList.drop 12).drop (i + 2))) := by
              simp [List.append_assoc]
          _ = String.mk ("__implicit__".toList ++ id.toList.drop 12) := by
              rw [hrest]
          _ = String.mk (id.toList.take 12 ++ id.toList.drop 12) := by
              rw [hpre]
          _ = String.mk id.toList := by rw [List.take_append_drop]
          _ = id := rfl
  · cases h

/-- `getArea` only returns a record carrying the queried id (on a
key-coherent store). -/
theorem getArea_id (levels : List AreaLevel) (s : AreaStore)
    (hs : AreaStore.KeyCoherent s) (k : String) (a : Area)
    (h : AreaStore.getArea levels s k = some a) : a.id = k := by
  rw [AreaStore.getArea] at h
  cases hf : s.find k with
  | some b =>
      rw [hf] at h
      simp at h
      rw [← h]
      exact hs k b hf
  | none =>
      rw [hf] at h
      cases hp : parseImplicitId k with
      | none => rw [hp] at h; cases h
      | some pr =>
          obtain ⟨prP, prL⟩ := pr
          rw [hp] at h
          dsimp only at h
          cases hfp : s.find prP with
          | none => rw [hfp] at h; cases h
          | some parent =>
              rw [hfp] at h
              dsimp only at h
              cases hcl : getChildLevel levels parent.level_key with
              | none => rw [hcl] at h; cases h
              | some childLevel =>
                  rw [hcl] at h
                  dsimp only at h
                  by_cases hkey : childLevel.key ≠ prL
                  · rw [if_pos hkey] at h; cases h
                  · rw [if_neg hkey] at h
                    push_neg at hkey
                    split at h
                    · cases h
                    · simp only [Option.some.injEq] at h
                      rw [← h]
                      show makeImplicitId parent.id childLevel.key = k
                      rw [hs prP parent hfp, hkey]
                      exact parseImplicitId_make k prP prL (by rw [hp])

/-! ## Per-operation write-sequence specifications

For every success-with-entry outcome, the operation's net effect on the
primary map is pointwise the forward write sequence of the history
entry it pushes, and all modified pairs keep their ids — the facts the
undo/redo round-trip rests on. -/

/-- The operation's store mutation replays its entry. -/
def CoreOk (s s' : AreaStore) (e : HistoryEntry) : Prop :=
  idsOK e ∧ FindEq s' (applyWrites (writesOf e) s)

theorem coreRename_spec (cfg : Config) (now : Nat) (s : AreaStore)
    (areaId name : String) (s' : AreaStore) (entry : HistoryEntry)
    (cs : ChangeSet) (ret : RetVal)
    (h : coreRename cfg now s areaId name =
      some (.ok (s', some (entry, cs), ret))) :
    CoreOk s s' entry := by
  rw [coreRename] at h
  split at h
  · cases h
  · rename_i area hga
    split at h
    · cases h
    · simp only [Option.some.injEq, Except.ok.injEq, Prod.mk.injEq] at h
      obtain ⟨h1, ⟨h2, _⟩, _⟩ := h
      subst h2
      constructor
      · intro m hm
        rcases List.mem_cons.mp hm with hm1 | hm2
        · subst hm1; rfl
        · cases hm2
      · rw [← h1]
        exact findEq_refl _

theorem coreReparentArea_spec (cfg : Config) (now fuel : Nat) (s : AreaStore)
    (areaId : String) (newParentId : Option String) (s' : AreaStore)
    (entry : HistoryEntry) (cs : ChangeSet) (ret : RetVal)
    (h : coreReparentArea cfg now fuel s areaId newParentId =
      some (.ok (s', some (entry, cs), ret))) :
    CoreOk s s' entry := by
  rw [coreReparentArea] at h
  split at h
  · cases h
  · rename_i area hga
    split at h
    · cases h
    · rename_i level hlv
      dsimp only at h
      split at h
      · cases h
      · simp at h
      · split at h
        · simp at h
        · simp only [Option.some.injEq, Except.ok.injEq, Prod.mk.injEq] at h
          obtain ⟨h1, ⟨h2, _⟩, _⟩ := h
          subst h2
          constructor
          · intro m hm
            rcases List.mem_cons.mp hm with hm1 | hm2
            · subst hm1; rfl
            · cases hm2
          · rw [← h1]
            exact findEq_refl _

/-- `addArea` agrees with `updateArea` on the primary map. -/
theorem addArea_findEq (s : AreaStore) (hs : AreaStore.KeyCoherent s)
    (a : Area) : FindEq (s.addArea a) (s.updateArea a) := by
  intro y
  rw [AreaStore.find_addArea, AreaStore.find_updateArea s hs]

/-- Creating one area then walking the ancestors replays the entry
`{created := [a], modified := ps}`. -/
theorem createThenWalk_findEq (s : AreaStore) (hs : AreaStore.KeyCoherent s)
    (a : Area) (ps : List ModPair) :
    FindEq (applyWrites (pairPuts ps) (s.addArea a))
      (applyWrites
        (writesOf { created := [a], deleted := [], modified := ps }) s) := by
  have hw : writesOf { created := [a], deleted := [], modified := ps } =
      .put a :: pairPuts ps := by simp [writesOf, pairPuts]
  rw [hw]
  have h2 : applyWrites (.put a :: pairPuts ps) s =
      applyWrites (pairPuts ps) (s.updateArea a) := rfl
  rw [h2]
  exact applyWrites_congr _ _ _ (keyCoherent_addArea s hs a)
    (AreaStore.keyCoherent_updateArea s hs a) (addArea_findEq s hs a)

/-- Creating a list of areas then walking replays
`{created := l, modified := ps}`. -/
theorem createManyThenWalk_findEq (s : AreaStore)
    (hs : AreaStore.KeyCoherent s) (l : List Area) (ps : List ModPair) :
    FindEq (applyWrites (pairPuts ps) (l.foldl AreaStore.addArea s))
      (applyWrites
        (writesOf { created := l, deleted := [], modified := ps }) s) := by
  have hw : writesOf { created := l, deleted := [], modified := ps } =
      l.map .put ++ pairPuts ps := by simp [writesOf, pairPuts]
  rw [hw, applyWrites_append]
  exact applyWrites_congr _ _ _
    (keyCoherent_foldl_addArea l s hs) (keyCoherent_applyWrites _ _ hs)
    (foldl_addArea_findEq l s hs)

theorem coreSaveAsArea_spec (cfg : Config) (now fuel : Nat) (s : AreaStore)
    (hs : AreaStore.KeyCoherent s)
    (draft : DraftShape) (name levelKey : String) (parentId : Option String)
    (freshId : String) (s' : AreaStore) (entry : HistoryEntry)
    (cs : ChangeSet) (ret : RetVal)
    (h : coreSaveAsArea cfg now fuel s draft name levelKey parentId freshId =
      some (.ok (s', some (entry, cs), ret))) :
    CoreOk s s' entry := by
  rw [coreSaveAsArea] at h
  split at h
  · cases h
  · split at h
    · cases h
    · split at h
      · cases h
      · rename_i level hlv
        dsimp only at h
        split at h
        · cases h
        · rename_i resolvedParentId hres
          split at h
          · cases h
          · rename_i geometry hgeo
            split at h
            · cases h
            · rename_i s2 ps hanc
              obtain ⟨hfe, hid⟩ := updateAnc_spec cfg now fuel _ _ _ _ hanc
              simp only [Option.some.injEq, Except.ok.injEq, Prod.mk.injEq] at h
              obtain ⟨h1, ⟨h2, _⟩, _⟩ := h
              subst h2
              refine ⟨fun m hm => hid m hm, ?_⟩
              rw [← h1, hfe]
              exact createThenWalk_findEq s hs _ ps

/-- Deleting a list of areas then walking replays
`{deleted := l, modified := ps}`. -/
theorem deleteManyThenWalk_eq (s : AreaStore) (l : List Area)
    (ps : List ModPair) :
    applyWrites (pairPuts ps) (l.foldl (fun t a => t.deleteArea a.id) s) =
      applyWrites
        (writesOf { created := [], deleted := l, modified := ps }) s := by
  rw [foldl_deleteArea_eq]
  have hw : writesOf { created := [], deleted := l, modified := ps } =
      l.map (fun a => .delId a.id) ++ pairPuts ps := by
    simp [writesOf, pairPuts]
  rw [hw, applyWrites_append]

/-- Two upserts with distinct ids commute on the primary map. -/
theorem updUpd_swap_findEq (s : AreaStore) (hs : AreaStore.KeyCoherent s)
    (a b : Area) (hab : a.id ≠ b.id) :
    FindEq ((s.updateArea a).updateArea b) ((s.updateArea b).updateArea a) := by
  intro x
  rw [AreaStore.find_updateArea _ (AreaStore.keyCoherent_updateArea s hs a) b,
    AreaStore.find_updateArea s hs a,
    AreaStore.find_updateArea _ (AreaStore.keyCoherent_updateArea s hs b) a,
    AreaStore.find_updateArea s hs b]
  have hba : ¬ b.id = a.id := fun hh => hab hh.symm
  by_cases hxa : x = a.id
  · have hxb : ¬ x = b.id := fun hh => hab (hxa ▸ hh)
    simp [hxa, hxb, hba, hab]
  · by_cases hxb : x = b.id <;> simp [hxa, hxb, hba, hab]

/-- An upsert and a deletion with distinct keys commute on the primary
map. -/
theorem updThenDel_findEq (s : AreaStore) (hs : AreaStore.KeyCoherent s)
    (a : Area) (i : String) (hai : i ≠ a.id) :
    FindEq ((s.updateArea a).deleteArea i) ((s.deleteArea i).updateArea a) := by
  intro x
  rw [AreaStore.find_deleteArea _ (AreaStore.keyCoherent_updateArea s hs a) i,
    AreaStore.find_updateArea s hs a,
    AreaStore.find_updateArea _ (AreaStore.keyCoherent_deleteArea s hs i) a,
    AreaStore.find_deleteArea s hs i]
  have hia : ¬ a.id = i := fun hh => hai hh.symm
  have hia2 : ¬ i = a.id := hai
  by_cases hxa : x = a.id
  · have hxi : ¬ x = i := fun hh => hai (by rw [← hh, hxa])
    simp [hxa, hxi, hia, hia2]
  · by_cases hxi : x = i <;> simp [hxa, hxi, hia, hia2]

theorem coreUpdateAreaGeometry_spec (cfg : Config) (now fuel : Nat)
    (s : AreaStore) (areaId : String) (draft : DraftShape) (s' : AreaStore)
    (entry : HistoryEntry) (cs : ChangeSet) (ret : RetVal)
    (h : coreUpdateAreaGeometry cfg now fuel s areaId draft =
      some (.ok (s', some (entry, cs), ret))) :
    CoreOk s s' entry := by
  rw [coreUpdateAreaGeometry] at h
  split at h
  · cases h
  · rename_i area hga
    split at h
    · cases h
    · split at h
      · cases h
      · split at h
        · cases h
        · split at h
          · cases h
          · rename_i geometry hgeo
            dsimp only at h
            split at h
            · cases h
            · rename_i s2 ps hanc
              obtain ⟨hfe, hid⟩ := updateAnc_spec cfg now fuel _ _ _ _ hanc
              simp only [Option.some.injEq, Except.ok.injEq, Prod.mk.injEq] at h
              obtain ⟨h1, ⟨h2, _⟩, _⟩ := h
              subst h2
              refine ⟨?_, ?_⟩
              · intro m hm
                rcases List.mem_cons.mp hm with hm1 | hm2
                · subst hm1; rfl
                · exact hid m hm2
              · rw [← h1, hfe]
                exact findEq_refl _

theorem coreDeleteArea_spec (cfg : Config) (now fuel : Nat) (s : AreaStore)
    (areaId : String) (cascade : Bool) (s' : AreaStore)
    (entry : HistoryEntry) (cs : ChangeSet) (ret : RetVal)
    (h : coreDeleteArea cfg now fuel s areaId cascade =
      some (.ok (s', some (entry, cs), ret))) :
    CoreOk s s' entry := by
  rw [coreDeleteArea] at h
  split at h
  · cases h
  · rename_i area hga
    split at h
    · cases h
    · dsimp only at h
      split at h
      · cases h
      · split at h
        · cases h
        · rename_i toDelete hcol
          split at h
          · cases h
          · rename_i s2 ps hanc
            obtain ⟨hfe, hid⟩ := updateAnc_spec cfg now fuel _ _ _ _ hanc
            simp only [Option.some.injEq, Except.ok.injEq, Prod.mk.injEq] at h
            obtain ⟨h1, ⟨h2, _⟩, _⟩ := h
            subst h2
            refine ⟨fun m hm => hid m hm, ?_⟩
            rw [← h1, hfe, deleteManyThenWalk_eq]
            exact findEq_refl _

theorem coreBulkCreate_spec (cfg : Config) (now fuel : Nat) (s : AreaStore)
    (hs : AreaStore.KeyCoherent s) (items : List AreaInput)
    (freshIds : Nat → String) (s' : AreaStore) (entry : HistoryEntry)
    (cs : ChangeSet) (ret : RetVal)
    (h : coreBulkCreate cfg now fuel s items freshIds =
      some (.ok (s', some (entry, cs), ret))) :
    CoreOk s s' entry := by
  rw [coreBulkCreate] at h
  split at h
  · simp at h
  · split at h
    · cases h
    · dsimp only at h
      split at h
      · cases h
      · rename_i s2 allModified hmany
        obtain ⟨nps, hall, hfe, hid⟩ :=
          updateAncMany_spec cfg now fuel _ _ _ _ _ hmany
        simp only [List.nil_append] at hall
        subst hall
        simp only [Option.some.injEq, Except.ok.injEq, Prod.mk.injEq] at h
        obtain ⟨h1, ⟨h2, _⟩, _⟩ := h
        subst h2
        refine ⟨fun m hm => hid m hm, ?_⟩
        rw [← h1, hfe]
        exact createManyThenWalk_findEq s hs _ _

theorem coreMergeArea_spec (cfg : Config) (now : Nat) (s : AreaStore)
    (hs : AreaStore.KeyCoherent s) (areaId otherAreaId : String)
    (hdistinct : areaId ≠ otherAreaId) (s' : AreaStore)
    (entry : HistoryEntry) (cs : ChangeSet) (ret : RetVal)
    (h : coreMergeArea cfg now s areaId otherAreaId =
      some (.ok (s', some (entry, cs), ret))) :
    CoreOk s s' entry := by
  rw [coreMergeArea] at h
  split at h
  · cases h
  · rename_i area hga
    split at h
    · cases h
    · rename_i otherArea hgo
      split at h
      · cases h
      · split at h
        · cases h
        · split at h
          · cases h
          · split at h
            · cases h
            · simp only [Option.some.injEq, Except.ok.injEq,
                Prod.mk.injEq] at h
              obtain ⟨h1, ⟨h2, _⟩, _⟩ := h
              subst h2
              have haid : area.id = areaId := getArea_id _ _ hs _ _ hga
              have hoid : otherArea.id = otherAreaId := getArea_id _ _ hs _ _ hgo
              refine ⟨?_, ?_⟩
              · intro m hm
                rcases List.mem_cons.mp hm with hm1 | hm2
                · subst hm1; rfl
                · cases hm2
              · rw [← h1]
                intro x
                have hw : writesOf
                    { created := [], deleted := [otherArea],
                      modified := [⟨area,
                        { area with
                            geometry := buildMergeGeometry area.geometry
                              otherArea.geometry
                            updated_at := now }⟩] } =
                    [.delId otherArea.id,
                      .put { area with
                        geometry := buildMergeGeometry area.geometry
                          otherArea.geometry
                        updated_at := now }] := by
                  simp [writesOf]
                rw [hw]
                have happ : applyWrites
                    [Write.delId otherArea.id,
                      Write.put { area with
                        geometry := buildMergeGeometry area.geometry
                          otherArea.geometry
                        updated_at := now }] s =
                    (s.deleteArea otherArea.id).updateArea
                      { area with
                        geometry := buildMergeGeometry area.geometry
                          otherArea.geometry
                        updated_at := now } := rfl
                rw [happ, hoid]
                exact updThenDel_findEq s hs _ otherAreaId
                  (fun hh => hdistinct (by rw [← haid, ← hh])) x

theorem sharedEdgeTail_spec (cfg : Config) (now fuel : Nat) (s : AreaStore)
    (area : Area) (currentVertex : Coord) (lat lng : ℚ) (s' : AreaStore)
    (entry : HistoryEntry) (cs : ChangeSet) (ret : RetVal)
    (h : sharedEdgeTail cfg now fuel s area currentVertex lat lng =
      some (.ok (s', some (entry, cs), ret))) :
    CoreOk s s' entry := by
  rw [sharedEdgeTail] at h
  dsimp only at h
  split at h
  · cases h
  · rename_i s2 ps hanc
    obtain ⟨hfe, hid⟩ := updateAnc_spec cfg now fuel _ _ _ _ hanc
    obtain ⟨nps, hpairs, hsout, hid2⟩ :=
      moveSiblings_spec now currentVertex.1 currentVertex.2 lng lat
        (cfg.epsilonOpt.getD (1 / 10 ^ 8))
        (match area.parent_id with
          | some p =>
              (AreaStore.getChildren cfg.levels s p).filter
                (fun c => !c.is_implicit)
          | none => [area]) s [] [] _ _ _ rfl
    simp only [List.nil_append] at hpairs
    simp only [Option.some.injEq, Except.ok.injEq, Prod.mk.injEq] at h
    obtain ⟨h1, ⟨h2, _⟩, _⟩ := h
    subst h2
    refine ⟨?_, ?_⟩
    · intro m hm
      rcases List.mem_append.mp (by rw [hpairs] at hm; exact hm)
        with hm1 | hm2
      · exact hid2 m hm1
      · exact hid m hm2
    · rw [← h1, hfe, hpairs, hsout]
      intro x
      have hw : writesOf
          { created := [], deleted := [], modified := nps ++ ps } =
          pairPuts nps ++ pairPuts ps := by
        simp [writesOf, pairPuts]
      rw [hw, applyWrites_append]

theorem coreSharedEdgeMove_spec (cfg : Config) (now fuel : Nat)
    (s : AreaStore) (areaId : String) (index : Int) (lat lng : ℚ)
    (s' : AreaStore) (entry : HistoryEntry) (cs : ChangeSet) (ret : RetVal)
    (h : coreSharedEdgeMove cfg now fuel s areaId index lat lng =
      some (.ok (s', some (entry, cs), ret))) :
    CoreOk s s' entry := by
  rw [coreSharedEdgeMove] at h
  split at h
  · cases h
  · rename_i area hga
    split at h
    · cases h
    · split at h
      · cases h
      · rename_i exteriorRing hring
        dsimp only at h
        split at h
        · cases h
        · split at h
          · cases h
          · rename_i currentVertex hvtx
            exact sharedEdgeTail_spec cfg now fuel s area currentVertex
              lat lng s' entry cs ret h

theorem coreSplitAsChildren_spec (cfg : Config) (now fuel : Nat)
    (s : AreaStore) (hs : AreaStore.KeyCoherent s) (areaId : String)
    (draft : DraftShape) (freshIds : Nat → String) (s' : AreaStore)
    (entry : HistoryEntry) (cs : ChangeSet) (ret : RetVal)
    (h : coreSplitAsChildren cfg now fuel s areaId draft freshIds =
      some (.ok (s', some (entry, cs), ret))) :
    CoreOk s s' entry := by
  rw [coreSplitAsChildren] at h
  split at h
  · cases h
  · rename_i area hga
    split at h
    · cases h
    · split at h
      · cases h
      · dsimp only at h
        split at h
        · cases h
        · cases h
        · rename_i targetArea childParentId hresv
          split at h
          · cases h
          · split at h
            · cases h
            · rename_i childLevel hcl
              split at h
              · cases h
              · split at h
                · simp at h
                · split at h
                  · cases h
                  · rename_i s2 ps hanc
                    obtain ⟨hfe, hid⟩ :=
                      updateAnc_spec cfg now fuel _ _ _ _ hanc
                    simp only [Option.some.injEq, Except.ok.injEq,
                      Prod.mk.injEq] at h
                    obtain ⟨h1, ⟨h2, _⟩, _⟩ := h
                    subst h2
                    refine ⟨fun m hm => hid m hm, ?_⟩
                    rw [← h1, hfe]
                    exact createManyThenWalk_findEq s hs _ ps

/-- Creating a list, deleting one id, then walking replays
`{created := l, deleted := [victim], modified := ps}`. -/
theorem createDeleteThenWalk_findEq (s : AreaStore)
    (hs : AreaStore.KeyCoherent s) (l : List Area) (victim : Area)
    (vid : String) (hvid : victim.id = vid) (ps : List ModPair) :
    FindEq
      (applyWrites (pairPuts ps)
        ((l.foldl AreaStore.addArea s).deleteArea vid))
      (applyWrites
        (writesOf { created := l, deleted := [victim], modified := ps }) s) := by
  intro x
  have hw : writesOf { created := l, deleted := [victim], modified := ps } =
      (l.map .put ++ [.delId victim.id]) ++ pairPuts ps := by
    simp [writesOf, pairPuts]
  rw [hw, applyWrites_append, applyWrites_append]
  have hdel : applyWrites [Write.delId victim.id]
      (applyWrites (l.map .put) s) =
      (applyWrites (l.map .put) s).deleteArea victim.id := rfl
  rw [hdel, hvid]
  exact applyWrites_congr (pairPuts ps) _ _
    (AreaStore.keyCoherent_deleteArea _ (keyCoherent_foldl_addArea l s hs) vid)
    (AreaStore.keyCoherent_deleteArea _ (keyCoherent_applyWrites _ _ hs) vid)
    (fun y => by
      rw [AreaStore.find_deleteArea _ (keyCoherent_foldl_addArea l s hs) vid,
        AreaStore.find_deleteArea _ (keyCoherent_applyWrites _ _ hs) vid]
      by_cases hy : y = vid
      · simp [hy]
      · simp only [hy, if_false]
        exact foldl_addArea_findEq l s hs y) x

theorem coreSplitReplace_spec (cfg : Config) (now fuel : Nat)
    (s : AreaStore) (hs : AreaStore.KeyCoherent s) (areaId : String)
    (draft : DraftShape) (freshIds : Nat → String) (s' : AreaStore)
    (entry : HistoryEntry) (cs : ChangeSet) (ret : RetVal)
    (h : coreSplitReplace cfg now fuel s areaId draft freshIds =
      some (.ok (s', some (entry, cs), ret))) :
    CoreOk s s' entry := by
  rw [coreSplitReplace] at h
  split at h
  · cases h
  · rename_i area hga
    split at h
    · cases h
    · split at h
      · cases h
      · split at h
        · cases h
        · dsimp only at h
          split at h
          · cases h
          · split at h
            · simp at h
            · split at h
              · cases h
              · rename_i s3 ps hanc
                obtain ⟨hfe, hid⟩ := updateAnc_spec cfg now fuel _ _ _ _ hanc
                simp only [Option.some.injEq, Except.ok.injEq,
                  Prod.mk.injEq] at h
                obtain ⟨h1, ⟨h2, _⟩, _⟩ := h
                subst h2
                have haid : area.id = areaId := getArea_id _ _ hs _ _ hga
                refine ⟨fun m hm => hid m hm, ?_⟩
                rw [← h1, hfe]
                exact createDeleteThenWalk_findEq s hs _ area areaId haid ps

/-- Creating two areas then walking replays
`{created := [a, b], modified := ps}`. -/
theorem createTwoThenWalk_findEq (s : AreaStore)
    (hs : AreaStore.KeyCoherent s) (a b : Area) (ps : List ModPair) :
    FindEq (applyWrites (pairPuts ps) ((s.addArea a).addArea b))
      (applyWrites
        (writesOf { created := [a, b], deleted := [], modified := ps }) s) :=
  fun x => createManyThenWalk_findEq s hs [a, b] ps x

/-- Updating one record then creating a fresh one (distinct id) then
walking replays `{created := [i], modified := ⟨b, d⟩ :: ps}` — the
`punchHole` shape, where the entry lists the created inner area before
the modified donut although the mutations ran the other way round. -/
theorem modifyCreateThenWalk_findEq (s : AreaStore)
    (hs : AreaStore.KeyCoherent s) (b d i : Area) (ps : List ModPair)
    (hdi : i.id ≠ d.id) :
    FindEq (applyWrites (pairPuts ps) ((s.updateArea d).addArea i))
      (applyWrites
        (writesOf
          { created := [i], deleted := [], modified := ⟨b, d⟩ :: ps }) s) := by
  intro x
  have hw : writesOf { created := [i], deleted := [], modified := ⟨b, d⟩ :: ps } = [.put i, .put d] ++ pairPuts ps := by
    simp [writesOf, pairPuts]
  rw [hw, applyWrites_append]
  have happ : applyWrites [Write.put i, Write.put d] s =
      (s.updateArea i).updateArea d := rfl
  rw [happ]
  refine applyWrites_congr (pairPuts ps) _ _
    (keyCoherent_addArea _ (AreaStore.keyCoherent_updateArea s hs d) i)
    (AreaStore.keyCoherent_updateArea _
      (AreaStore.keyCoherent_updateArea s hs i) d)
    (fun y => ?_) x
  calc ((s.updateArea d).addArea i).find y
      = ((s.updateArea d).updateArea i).find y :=
        addArea_findEq _ (AreaStore.keyCoherent_updateArea s hs d) i y
    _ = ((s.updateArea i).updateArea d).find y :=
        updUpd_swap_findEq s hs d i (fun hh => hdi hh.symm) y

/-- Creating a fresh area then updating another record then walking
replays `{created := [c], modified := ⟨b, u⟩ :: ps}` — the
`expandWithChild` shape. -/
theorem createModifyThenWalk_findEq (s : AreaStore)
    (hs : AreaStore.KeyCoherent s) (b c u : Area) (ps : List ModPair) :
    FindEq (applyWrites (pairPuts ps) ((s.addArea c).updateArea u))
      (applyWrites
        (writesOf
          { created := [c], deleted := [], modified := ⟨b, u⟩ :: ps }) s) := by
  intro x
  have hw : writesOf { created := [c], deleted := [], modified := ⟨b, u⟩ :: ps } = [.put c, .put u] ++ pairPuts ps := by
    simp [writesOf, pairPuts]
  rw [hw, applyWrites_append]
  have happ : applyWrites [Write.put c, Write.put u] s =
      (s.updateArea c).updateArea u := rfl
  rw [happ]
  refine applyWrites_congr (pairPuts ps) _ _
    (AreaStore.keyCoherent_updateArea _ (keyCoherent_addArea s hs c) u)
    (AreaStore.keyCoherent_updateArea _
      (AreaStore.keyCoherent_updateArea s hs c) u)
    (fun y => ?_) x
  exact applyWrites_congr [.put u] _ _
    (keyCoherent_addArea s hs c)
    (AreaStore.keyCoherent_updateArea s hs c)
    (addArea_findEq s hs c) y

theorem coreCarveInnerChild_spec (cfg : Config) (now fuel : Nat)
    (s : AreaStore) (hs : AreaStore.KeyCoherent s) (areaId : String)
    (points : List Pt) (freshOuter freshInner : String) (s' : AreaStore)
    (entry : HistoryEntry) (cs : ChangeSet) (ret : RetVal)
    (h : coreCarveInnerChild cfg now fuel s areaId points freshOuter
      freshInner = some (.ok (s', some (entry, cs), ret))) :
    CoreOk s s' entry := by
  rw [coreCarveInnerChild] at h
  split at h
  · cases h
  · rename_i area hga
    split at h
    · cases h
    · split at h
      · cases h
      · rename_i childLevel hcl
        dsimp only at h
        split at h
        · cases h
        · split at h
          · cases h
          · rename_i s2 ps hanc
            obtain ⟨hfe, hid⟩ := updateAnc_spec cfg now fuel _ _ _ _ hanc
            simp only [Option.some.injEq, Except.ok.injEq, Prod.mk.injEq] at h
            obtain ⟨h1, ⟨h2, _⟩, _⟩ := h
            subst h2
            refine ⟨fun m hm => hid m hm, ?_⟩
            rw [← h1, hfe]
            exact createTwoThenWalk_findEq s hs _ _ ps

theorem corePunchHole_spec (cfg : Config) (now fuel : Nat) (s : AreaStore)
    (hs : AreaStore.KeyCoherent s) (areaId : String) (holePath : List Pt)
    (freshInner : String) (hfresh : freshInner ≠ areaId) (s' : AreaStore)
    (entry : HistoryEntry) (cs : ChangeSet) (ret : RetVal)
    (h : corePunchHole cfg now fuel s areaId holePath freshInner =
      some (.ok (s', some (entry, cs), ret))) :
    CoreOk s s' entry := by
  rw [corePunchHole] at h
  split at h
  · cases h
  · rename_i area hga
    split at h
    · cases h
    · dsimp only at h
      split at h
      · cases h
      · split at h
        · cases h
        · rename_i s3 ps hanc
          obtain ⟨hfe, hid⟩ := updateAnc_spec cfg now fuel _ _ _ _ hanc
          simp only [Option.some.injEq, Except.ok.injEq, Prod.mk.injEq] at h
          obtain ⟨h1, ⟨h2, _⟩, _⟩ := h
          subst h2
          have haid : area.id = areaId := getArea_id _ _ hs _ _ hga
          refine ⟨?_, ?_⟩
          · intro m hm
            rcases List.mem_cons.mp hm with hm1 | hm2
            · subst hm1; rfl
            · exact hid m hm2
          · rw [← h1, hfe]
            exact modifyCreateThenWalk_findEq s hs area _ _ ps
              (fun hh => hfresh (hh.trans haid))

theorem coreExpandWithChild_spec (cfg : Config) (now fuel : Nat)
    (s : AreaStore) (hs : AreaStore.KeyCoherent s) (parentAreaId : String)
    (outerPath : List Pt) (freshChild : String) (s' : AreaStore)
    (entry : HistoryEntry) (cs : ChangeSet) (ret : RetVal)
    (h : coreExpandWithChild cfg now fuel s parentAreaId outerPath
      freshChild = some (.ok (s', some (entry, cs), ret))) :
    CoreOk s s' entry := by
  rw [coreExpandWithChild] at h
  split at h
  · cases h
  · rename_i area hga
    split at h
    · cases h
    · rename_i childLevel hcl
      split at h
      · cases h
      · dsimp only at h
        split at h
        · cases h
        · rename_i s3 ps hanc
          obtain ⟨hfe, hid⟩ := updateAnc_spec cfg now fuel _ _ _ _ hanc
          simp only [Option.some.injEq, Except.ok.injEq, Prod.mk.injEq] at h
          obtain ⟨h1, ⟨h2, _⟩, _⟩ := h
          subst h2
          refine ⟨?_, ?_⟩
          · intro m hm
            rcases List.mem_cons.mp hm with hm1 | hm2
            · subst hm1; rfl
            · exact hid m hm2
          · rw [← h1, hfe]
            exact createModifyThenWalk_findEq s hs area _ _ ps


/-! ### Success without a history entry never mutates the store

Only `bulkCreate []` and the two split operations returning fewer than
two pieces succeed without pushing an entry; they return the store
untouched. -/

theorem coreRename_nopush (cfg : Config) (now : Nat) (s : AreaStore)
    (areaId name : String) (s' : AreaStore) (ret : RetVal)
    (h : coreRename cfg now s areaId name = some (.ok (s', none, ret))) :
    s' = s := by
  rw [coreRename] at h
  split at h
  · cases h
  · split at h <;> simp at h

theorem coreSaveAsArea_nopush (cfg : Config) (now fuel : Nat) (s : AreaStore)
    (draft : DraftShape) (name levelKey : String) (parentId : Option String)
    (freshId : String) (s' : AreaStore) (ret : RetVal)
    (h : coreSaveAsArea cfg now fuel s draft name levelKey parentId freshId =
      some (.ok (s', none, ret))) : s' = s := by
  rw [coreSaveAsArea] at h
  split at h
  · cases h
  · split at h
    · cases h
    · split at h
      · cases h
      · dsimp only at h
        split at h
        · cases h
        · split at h
          · cases h
          · split at h
            · cases h
            · simp at h

theorem coreDeleteArea_nopush (cfg : Config) (now fuel : Nat) (s : AreaStore)
    (areaId : String) (cascade : Bool) (s' : AreaStore) (ret : RetVal)
    (h : coreDeleteArea cfg now fuel s areaId cascade =
      some (.ok (s', none, ret))) : s' = s := by
  rw [coreDeleteArea] at h
  split at h
  · cases h
  · split at h
    · cases h
    · dsimp only at h
      split at h
      · cases h
      · split at h
        · cases h
        · split at h
          · cases h
          · simp at h

theorem coreBulkCreate_nopush (cfg : Config) (now fuel : Nat) (s : AreaStore)
    (items : List AreaInput) (freshIds : Nat → String) (s' : AreaStore)
    (ret : RetVal)
    (h : coreBulkCreate cfg now fuel s items freshIds =
      some (.ok (s', none, ret))) : s' = s := by
  rw [coreBulkCreate] at h
  split at h
  · simp at h
    exact h.1.symm
  · split at h
    · cases h
    · dsimp only at h
      split at h
      · cases h
      · simp at h

theorem coreUpdateAreaGeometry_nopush (cfg : Config) (now fuel : Nat)
    (s : AreaStore) (areaId : String) (draft : DraftShape) (s' : AreaStore)
    (ret : RetVal)
    (h : coreUpdateAreaGeometry cfg now fuel s areaId draft =
      some (.ok (s', none, ret))) : s' = s := by
  rw [coreUpdateAreaGeometry] at h
  split at h
  · cases h
  · split at h
    · cases h
    · split at h
      · cases h
      · split at h
        · cases h
        · split at h
          · cases h
          · dsimp only at h
            split at h
            · cases h
            · simp at h

theorem coreReparentArea_nopush (cfg : Config) (now fuel : Nat)
    (s : AreaStore) (areaId : String) (newParentId : Option String)
    (s' : AreaStore) (ret : RetVal)
    (h : coreReparentArea cfg now fuel s areaId newParentId =
      some (.ok (s', none, ret))) : s' = s := by
  rw [coreReparentArea] at h
  split at h
  · cases h
  · split at h
    · cases h
    · dsimp only at h
      split at h
      · cases h
      · simp at h
      · split at h
        · simp at h
        · simp at h

theorem coreMergeArea_nopush (cfg : Config) (now : Nat) (s : AreaStore)
    (areaId otherAreaId : String) (s' : AreaStore) (ret : RetVal)
    (h : coreMergeArea cfg now s areaId otherAreaId =
      some (.ok (s', none, ret))) : s' = s := by
  rw [coreMergeArea] at h
  split at h
  · cases h
  · split at h
    · cases h
    · split at h
      · cases h
      · split at h
        · cases h
        · split at h
          · cases h
          · split at h
            · cases h
            · simp at h

theorem sharedEdgeTail_nopush (cfg : Config) (now fuel : Nat) (s : AreaStore)
    (area : Area) (currentVertex : Coord) (lat lng : ℚ) (s' : AreaStore)
    (ret : RetVal)
    (h : sharedEdgeTail cfg now fuel s area currentVertex lat lng =
      some (.ok (s', none, ret))) : s' = s := by
  rw [sharedEdgeTail] at h
  dsimp only at h
  split at h
  · cases h
  · simp at h

theorem coreSharedEdgeMove_nopush (cfg : Config) (now fuel : Nat)
    (s : AreaStore) (areaId : String) (index : Int) (lat lng : ℚ)
    (s' : AreaStore) (ret : RetVal)
    (h : coreSharedEdgeMove cfg now fuel s areaId index lat lng =
      some (.ok (s', none, ret))) : s' = s := by
  rw [coreSharedEdgeMove] at h
  split at h
  · cases h
  · rename_i area hga
    split at h
    · cases h
    · split at h
      · cases h
      · rename_i exteriorRing hring
        dsimp only at h
        split at h
        · cases h
        · split at h
          · cases h
          · rename_i currentVertex hvtx
            exact sharedEdgeTail_nopush cfg now fuel s area currentVertex
              lat lng s' ret h

theorem coreSplitAsChildren_nopush (cfg : Config) (now fuel : Nat)
    (s : AreaStore) (areaId : String) (draft : DraftShape)
    (freshIds : Nat → String) (s' : AreaStore) (ret : RetVal)
    (h : coreSplitAsChildren cfg now fuel s areaId draft freshIds =
      some (.ok (s', none, ret))) : s' = s := by
  rw [coreSplitAsChildren] at h
  split at h
  · cases h
  · split at h
    · cases h
    · split at h
      · cases h
      · dsimp only at h
        split at h
        · cases h
        · cases h
        · split at h
          · cases h
          · split at h
            · cases h
            · split at h
              · cases h
              · split at h
                · simp at h
                  exact h.1.symm
                · split at h
                  · cases h
                  · simp at h

theorem coreSplitReplace_nopush (cfg : Config) (now fuel : Nat)
    (s : AreaStore) (areaId : String) (draft : DraftShape)
    (freshIds : Nat → String) (s' : AreaStore) (ret : RetVal)
    (h : coreSplitReplace cfg now fuel s areaId draft freshIds =
      some (.ok (s', none, ret))) : s' = s := by
  rw [coreSplitReplace] at h
  split at h
  · cases h
  · split at h
    · cases h
    · split at h
      · cases h
      · split at h
        · cases h
        · dsimp only at h
          split at h
          · cases h
          · split at h
            · simp at h
              exact h.1.symm
            · split at h
              · cases h
              · simp at h

theorem coreCarveInnerChild_nopush (cfg : Config) (now fuel : Nat)
    (s : AreaStore) (areaId : String) (points : List Pt)
    (freshOuter freshInner : String) (s' : AreaStore) (ret : RetVal)
    (h : coreCarveInnerChild cfg now fuel s areaId points freshOuter
      freshInner = some (.ok (s', none, ret))) : s' = s := by
  rw [coreCarveInnerChild] at h
  split at h
  · cases h
  · split at h
    · cases h
    · split at h
      · cases h
      · dsimp only at h
        split at h
        · cases h
        · split at h
          · cases h
          · simp at h

theorem corePunchHole_nopush (cfg : Config) (now fuel : Nat) (s : AreaStore)
    (areaId : String) (holePath : List Pt) (freshInner : String)
    (s' : AreaStore) (ret : RetVal)
    (h : corePunchHole cfg now fuel s areaId holePath freshInner =
      some (.ok (s', none, ret))) : s' = s := by
  rw [corePunchHole] at h
  split at h
  · cases h
  · split at h
    · cases h
    · dsimp only at h
      split at h
      · cases h
      · split at h
        · cases h
        · simp at h

theorem coreExpandWithChild_nopush (cfg : Config) (now fuel : Nat)
    (s : AreaStore) (parentAreaId : String) (outerPath : List Pt)
    (freshChild : String) (s' : AreaStore) (ret : RetVal)
    (h : coreExpandWithChild cfg now fuel s parentAreaId outerPath
      freshChild = some (.ok (s', none, ret))) : s' = s := by
  rw [coreExpandWithChild] at h
  split at h
  · cases h
  · split at h
    · cases h
    · split at h
      · cases h
      · dsimp only at h
        split at h
        · cases h
        · simp at h

/-! ## The aggregated operation specification -/

/-- Well-formedness of a step: `mergeArea` must target two distinct ids
and `punchHole` must receive a fresh uuid different from its target.
The source performs no check for either (`crypto.randomUUID()` is
trusted for the latter, nothing guards the former), and the round trip
genuinely fails without these side conditions — see the `mergeArea`
counterexample below. -/
def stepWF (st : Step) : Prop :=
  match st.op with
  | .mergeArea areaId otherAreaId => areaId ≠ otherAreaId
  | .punchHole areaId _ freshInner => freshInner ≠ areaId
  | _ => True

/-- Every success-with-entry outcome of any of the 13 operations
replays its history entry. -/
theorem opCore_spec (cfg : Config) (st : Step) (s : AreaStore)
    (hs : AreaStore.KeyCoherent s) (hwf : stepWF st) (s' : AreaStore)
    (entry : HistoryEntry) (cs : ChangeSet) (ret : RetVal)
    (h : opCore cfg st s = some (.ok (s', some (entry, cs), ret))) :
    CoreOk s s' entry := by
  obtain ⟨op, now, fuel, storageOk⟩ := st
  cases op with
  | rename areaId name =>
      exact coreRename_spec cfg now s areaId name s' entry cs ret h
  | saveAsArea draft name levelKey parentId freshId =>
      exact coreSaveAsArea_spec cfg now fuel s hs draft name levelKey
        parentId freshId s' entry cs ret h
  | deleteArea areaId cascade =>
      exact coreDeleteArea_spec cfg now fuel s areaId cascade s' entry cs
        ret h
  | bulkCreate items freshIds =>
      exact coreBulkCreate_spec cfg now fuel s hs items freshIds s' entry
        cs ret h
  | updateAreaGeometry areaId draft =>
      exact coreUpdateAreaGeometry_spec cfg now fuel s areaId draft s'
        entry cs ret h
  | reparentArea areaId newParentId =>
      exact coreReparentArea_spec cfg now fuel s areaId newParentId s'
        entry cs ret h
  | mergeArea areaId otherAreaId =>
      exact coreMergeArea_spec cfg now s hs areaId otherAreaId hwf s'
        entry cs ret h
  | sharedEdgeMove areaId index lat lng =>
      exact coreSharedEdgeMove_spec cfg now fuel s areaId index lat lng s'
        entry cs ret h
  | splitAsChildren areaId draft freshIds =>
      exact coreSplitAsChildren_spec cfg now fuel s hs areaId draft
        freshIds s' entry cs ret h
  | splitReplace areaId draft freshIds =>
      exact coreSplitReplace_spec cfg now fuel s hs areaId draft freshIds
        s' entry cs ret h
  | carveInnerChild areaId points freshOuter freshInner =>
      exact coreCarveInnerChild_spec cfg now fuel s hs areaId points
        freshOuter freshInner s' entry cs ret h
  | punchHole areaId holePath freshInner =>
      exact corePunchHole_spec cfg now fuel s hs areaId holePath
        freshInner hwf s' entry cs ret h
  | expandWithChild parentAreaId outerPath freshChild =>
      exact coreExpandWithChild_spec cfg now fuel s hs parentAreaId
        outerPath freshChild s' entry cs ret h

/-- Any success without a history entry returns the store untouched. -/
theorem opCore_nopush (cfg : Config) (st : Step) (s s' : AreaStore)
    (ret : RetVal) (h : opCore cfg st s = some (.ok (s', none, ret))) :
    s' = s := by
  obtain ⟨op, now, fuel, storageOk⟩ := st
  cases op with
  | rename areaId name =>
      exact coreRename_nopush cfg now s areaId name s' ret h
  | saveAsArea draft name levelKey parentId freshId =>
      exact coreSaveAsArea_nopush cfg now fuel s draft name levelKey
        parentId freshId s' ret h
  | deleteArea areaId cascade =>
      exact coreDeleteArea_nopush cfg now fuel s areaId cascade s' ret h
  | bulkCreate items freshIds =>
      exact coreBulkCreate_nopush cfg now fuel s items freshIds s' ret h
  | updateAreaGeometry areaId draft =>
      exact coreUpdateAreaGeometry_nopush cfg now fuel s areaId draft s'
        ret h
  | reparentArea areaId newParentId =>
      exact coreReparentArea_nopush cfg now fuel s areaId newParentId s'
        ret h
  | mergeArea areaId otherAreaId =>
      exact coreMergeArea_nopush cfg now s areaId otherAreaId s' ret h
  | sharedEdgeMove areaId index lat lng =>
      exact coreSharedEdgeMove_nopush cfg now fuel s areaId index lat lng
        s' ret h
  | splitAsChildren areaId draft freshIds =>
      exact coreSplitAsChildren_nopush cfg now fuel s areaId draft
        freshIds s' ret h
  | splitReplace areaId draft freshIds =>
      exact coreSplitReplace_nopush cfg now fuel s areaId draft freshIds
        s' ret h
  | carveInnerChild areaId points freshOuter freshInner =>
      exact coreCarveInnerChild_nopush cfg now fuel s areaId points
        freshOuter freshInner s' ret h
  | punchHole areaId holePath freshInner =>
      exact corePunchHole_nopush cfg now fuel s areaId holePath freshInner
        s' ret h
  | expandWithChild parentAreaId outerPath freshChild =>
      exact coreExpandWithChild_nopush cfg now fuel s parentAreaId
        outerPath freshChild s' ret h

/-! ## Histories as forward-replay chains -/

/-- No write of `ws` touches key `x` exactly when `lastWrite` is
`none`. -/
theorem lastWrite_eq_none_iff (ws : List Write) (x : String) :
    lastWrite ws x = none ↔ ∀ w ∈ ws, ¬ w.key = x := by
  induction ws with
  | nil => simp [lastWrite]
  | cons w rest ih =>
      constructor
      · intro h
        cases hr : lastWrite rest x with
        | some v => simp [lastWrite, hr] at h
        | none =>
            simp only [lastWrite, hr] at h
            intro w' hw'
            rcases List.mem_cons.mp hw' with h1 | h2
            · subst h1
              by_contra hk
              simp [hk] at h
            · exact (ih.mp hr) w' h2
      · intro h
        have hr : lastWrite rest x = none :=
          ih.mpr (fun w' hw' => h w' (List.mem_cons_of_mem _ hw'))
        simp [lastWrite, hr, h w (List.mem_cons_self _ _)]

theorem keyCoherent_applyUndo (e : HistoryEntry) (s : AreaStore)
    (hs : AreaStore.KeyCoherent s) :
    AreaStore.KeyCoherent (applyUndo e s).1 :=
  keyCoherent_of_findEq _ _ (keyCoherent_applyWrites (undoWrites e) s hs)
    (applyUndo_findEq e s hs)

theorem keyCoherent_applyRedo (e : HistoryEntry) (s : AreaStore)
    (hs : AreaStore.KeyCoherent s) :
    AreaStore.KeyCoherent (applyRedo e s).1 :=
  keyCoherent_of_findEq _ _ (keyCoherent_applyWrites (writesOf e) s hs)
    (applyRedo_findEq e s hs)

/-- The concatenated forward write sequence of a history (oldest entry
first). -/
def entryWrites (es : List HistoryEntry) : List Write :=
  (es.map writesOf).flatten

/-- `Chain s es t`: starting from `s`, the entries of `es` (oldest
first) replay, in sequence, to stores ending pointwise at `t`; every
entry keeps its modified ids.  `runSteps` maintains exactly this
relation between the initial store, the undo stack, and the live
store. -/
def Chain (s : AreaStore) : List HistoryEntry → AreaStore → Prop
  | [], t => FindEq t s
  | e :: rest, t =>
      idsOK e ∧ ∃ m, FindEq m (applyWrites (writesOf e) s) ∧ Chain m rest t

theorem chain_kc (s : AreaStore) (hs : AreaStore.KeyCoherent s) :
    ∀ (es : List HistoryEntry) (t : AreaStore), Chain s es t →
      AreaStore.KeyCoherent t := by
  intro es
  induction es generalizing s with
  | nil =>
      intro t h
      exact keyCoherent_of_findEq s t hs h
  | cons e rest ih =>
      intro t h
      obtain ⟨_, m, hm, hch⟩ := h
      exact ih m (keyCoherent_of_findEq _ _
        (keyCoherent_applyWrites (writesOf e) s hs) hm) t hch

theorem chain_idsOK (s : AreaStore) :
    ∀ (es : List HistoryEntry) (t : AreaStore), Chain s es t →
      ∀ e ∈ es, idsOK e := by
  intro es
  induction es generalizing s with
  | nil => intro t _ e he; cases he
  | cons e' rest ih =>
      intro t h e he
      obtain ⟨hids, m, _, hch⟩ := h
      rcases List.mem_cons.mp he with h1 | h2
      · subst h1; exact hids
      · exact ih m t hch e h2

/-- Extending a chain by one more replayed entry. -/
theorem chain_snoc (s : AreaStore) (hs : AreaStore.KeyCoherent s) :
    ∀ (es : List HistoryEntry) (t u : AreaStore) (e : HistoryEntry),
      Chain s es t → idsOK e →
      FindEq u (applyWrites (writesOf e) t) →
      Chain s (es ++ [e]) u := by
  intro es
  induction es generalizing s with
  | nil =>
      intro t u e hch hids hu
      refine ⟨hids, u, ?_, findEq_refl u⟩
      intro x
      have ht : AreaStore.KeyCoherent t := keyCoherent_of_findEq s t hs hch
      rw [hu x, applyWrites_congr (writesOf e) t s ht hs hch x]
  | cons e' rest ih =>
      intro t u e hch hids hu
      obtain ⟨hids', m, hm, hch'⟩ := hch
      have hmc : AreaStore.KeyCoherent m := keyCoherent_of_findEq _ _
        (keyCoherent_applyWrites (writesOf e') s hs) hm
      exact ⟨hids', m, hm, ih m hmc t u e hch' hids hu⟩

/-- A chain's endpoint is the concatenated forward write sequence. -/
theorem chain_findEq (s : AreaStore) (hs : AreaStore.KeyCoherent s) :
    ∀ (es : List HistoryEntry) (t : AreaStore), Chain s es t →
      FindEq t (applyWrites (entryWrites es) s) := by
  intro es
  induction es generalizing s with
  | nil =>
      intro t h
      simpa [entryWrites, applyWrites] using h
  | cons e rest ih =>
      intro t h
      obtain ⟨_, m, hm, hch⟩ := h
      have hws : AreaStore.KeyCoherent (applyWrites (writesOf e) s) :=
        keyCoherent_applyWrites (writesOf e) s hs
      have hmc : AreaStore.KeyCoherent m := keyCoherent_of_findEq _ _ hws hm
      intro x
      have hsplit : entryWrites (e :: rest) =
          writesOf e ++ entryWrites rest := by
        simp [entryWrites]
      calc t.find x
          = (applyWrites (entryWrites rest) m).find x := ih m hmc t hch x
        _ = (applyWrites (entryWrites rest)
              (applyWrites (writesOf e) s)).find x :=
            applyWrites_congr _ _ _ hmc hws hm x
        _ = (applyWrites (entryWrites (e :: rest)) s).find x := by
            rw [hsplit, applyWrites_append]

/-- The store after `undo()`-ing a list of entries (pop order). -/
def undoList (es : List HistoryEntry) (s : AreaStore) : AreaStore :=
  es.foldl (fun t e => (applyUndo e t).1) s

/-- The store after `redo()`-ing a list of entries (pop order). -/
def redoList (es : List HistoryEntry) (s : AreaStore) : AreaStore :=
  es.foldl (fun t e => (applyRedo e t).1) s

theorem keyCoherent_undoList (es : List HistoryEntry) (s : AreaStore)
    (hs : AreaStore.KeyCoherent s) :
    AreaStore.KeyCoherent (undoList es s) := by
  induction es generalizing s with
  | nil => exact hs
  | cons e rest ih => exact ih _ (keyCoherent_applyUndo e s hs)

theorem keyCoherent_redoList (es : List HistoryEntry) (s : AreaStore)
    (hs : AreaStore.KeyCoherent s) :
    AreaStore.KeyCoherent (redoList es s) := by
  induction es generalizing s with
  | nil => exact hs
  | cons e rest ih => exact ih _ (keyCoherent_applyRedo e s hs)

/-- Redoing a list of entries is, pointwise, their concatenated forward
write sequence. -/
theorem redoList_findEq (es : List HistoryEntry) (s : AreaStore)
    (hs : AreaStore.KeyCoherent s) :
    FindEq (redoList es s) (applyWrites (entryWrites es) s) := by
  induction es generalizing s with
  | nil => intro x; simp [redoList, entryWrites, applyWrites]
  | cons e rest ih =>
      intro x
      have hr : AreaStore.KeyCoherent (applyRedo e s).1 :=
        keyCoherent_applyRedo e s hs
      have hws : AreaStore.KeyCoherent (applyWrites (writesOf e) s) :=
        keyCoherent_applyWrites (writesOf e) s hs
      have hsplit : entryWrites (e :: rest) =
          writesOf e ++ entryWrites rest := by
        simp [entryWrites]
      calc (redoList (e :: rest) s).find x
          = (redoList rest (applyRedo e s).1).find x := rfl
        _ = (applyWrites (entryWrites rest) (applyRedo e s).1).find x :=
            ih _ hr x
        _ = (applyWrites (entryWrites rest)
              (applyWrites (writesOf e) s)).find x :=
            applyWrites_congr _ _ _ hr hws (applyRedo_findEq e s hs) x
        _ = (applyWrites (entryWrites (e :: rest)) s).find x := by
            rw [hsplit, applyWrites_append]

/-- Undoing entries whose forward sequences never touch `x` leaves `x`
unchanged. -/
theorem undoList_untouched (x : String) :
    ∀ (es : List HistoryEntry) (s : AreaStore),
      AreaStore.KeyCoherent s →
      (∀ e ∈ es, idsOK e ∧ lastWrite (writesOf e) x = none) →
      (undoList es s).find x = s.find x := by
  intro es
  induction es with
  | nil => intro s _ _; rfl
  | cons e rest ih =>
      intro s hs h
      obtain ⟨hids, hlw⟩ := h e (List.mem_cons_self _ _)
      have hstep : ((applyUndo e s).1).find x = s.find x := by
        rw [applyUndo_findEq e s hs x]
        exact find_applyWrites_untouched _ s hs x
          (undoWrites_keys_sub e hids x hlw)
      calc (undoList (e :: rest) s).find x
          = (undoList rest (applyUndo e s).1).find x := rfl
        _ = ((applyUndo e s).1).find x :=
            ih _ (keyCoherent_applyUndo e s hs)
              (fun e' he' => h e' (List.mem_cons_of_mem _ he'))
        _ = s.find x := hstep

/-- The round-trip core: undoing a replay chain in pop order and then
redoing it restores the endpoint pointwise. -/
theorem chain_roundTrip (m : AreaStore) (hm : AreaStore.KeyCoherent m)
    (es : List HistoryEntry) (B : AreaStore) (hch : Chain m es B) :
    FindEq (redoList es (undoList es.reverse B)) B := by
  intro x
  have hB : AreaStore.KeyCoherent B := chain_kc m hm es B hch
  have hU : AreaStore.KeyCoherent (undoList es.reverse B) :=
    keyCoherent_undoList es.reverse B hB
  have h1 : (redoList es (undoList es.reverse B)).find x =
      (lastWrite (entryWrites es) x).getD
        ((undoList es.reverse B).find x) := by
    rw [redoList_findEq es _ hU x, find_applyWrites _ _ hU x]
  have h2 : B.find x =
      (lastWrite (entryWrites es) x).getD (m.find x) := by
    rw [chain_findEq m hm es B hch x, find_applyWrites _ _ hm x]
  cases hlw : lastWrite (entryWrites es) x with
  | some v => rw [h1, h2, hlw]; rfl
  | none =>
      rw [h1, hlw, Option.getD_none]
      have hper : ∀ e ∈ es.reverse, idsOK e ∧
          lastWrite (writesOf e) x = none := by
        intro e he
        have he' : e ∈ es := List.mem_reverse.mp he
        refine ⟨chain_idsOK m es B hch e he', ?_⟩
        rw [lastWrite_eq_none_iff]
        intro w hw
        exact (lastWrite_eq_none_iff _ x).mp hlw w
          (List.mem_flatten.mpr ⟨writesOf e, List.mem_map.mpr ⟨e, he', rfl⟩, hw⟩)
      exact undoList_untouched x es.reverse B hB hper

/-- The run invariant: a trim-free successful run keeps the store
key-coherent, keeps the undo stack a replay chain from the initial
store to the live store, keeps the redo stack empty, and grows the
undo stack by at most one entry per step. -/
theorem runSteps_inv (cfg : Config) (base : AreaStore)
    (hbase : AreaStore.KeyCoherent base) :
    ∀ (steps : List Step) (est est' : EState),
      (∀ st ∈ steps, stepWF st) →
      AreaStore.KeyCoherent est.store →
      Chain base est.undoStack est.store →
      est.redoStack = [] →
      est.undoStack.length + steps.length ≤ cfg.maxUndoSteps →
      runSteps cfg steps est = some est' →
      AreaStore.KeyCoherent est'.store ∧
        Chain base est'.undoStack est'.store ∧ est'.redoStack = [] ∧
        est'.undoStack.length ≤ est.undoStack.length + steps.length := by
  intro steps
  induction steps with
  | nil =>
      intro est est' _ hkc hch hrd _ h
      simp only [runSteps, Option.some.injEq] at h
      subst h
      exact ⟨hkc, hch, hrd, by simp⟩
  | cons st rest ih =>
      intro est est' hwf hkc hch hrd hroom h
      rw [runSteps] at h
      cases hrs : runStep cfg est st with
      | none => rw [hrs] at h; simp at h
      | some p =>
          obtain ⟨est1, r⟩ := p
          rw [hrs] at h
          cases r with
          | error e => simp at h
          | ok rv =>
              rw [runStep] at hrs
              cases hoc : opCore cfg st est.store with
              | none => rw [hoc] at hrs; simp at hrs
              | some res =>
                  rw [hoc] at hrs
                  cases res with
                  | error e => simp at hrs
                  | ok trip =>
                      obtain ⟨s', opt, ret⟩ := trip
                      cases opt with
                      | none =>
                          have hs' : s' = est.store :=
                            opCore_nopush cfg st est.store s' ret hoc
                          simp only [Option.some.injEq,
                            Prod.mk.injEq] at hrs
                          obtain ⟨h1, _⟩ := hrs
                          subst hs'
                          have hest1 : est1 = est := by
                            rw [← h1]
                          subst hest1
                          obtain ⟨hk2, hc2, hr2, hl2⟩ := ih est1 est'
                            (fun s hs => hwf s (List.mem_cons_of_mem _ hs))
                            hkc hch hrd (by simp at hroom ⊢; omega) h
                          exact ⟨hk2, hc2, hr2, by simp; omega⟩
                      | some ec =>
                          obtain ⟨entry, cs⟩ := ec
                          have hco : CoreOk est.store s' entry :=
                            opCore_spec cfg st est.store hkc
                              (hwf st (List.mem_cons_self _ _)) s' entry cs
                              ret hoc
                          obtain ⟨hids, hfe⟩ := hco
                          cases hso : st.storageOk with
                          | false =>
                              rw [hso] at hrs
                              simp [commit] at hrs
                          | true =>
                              rw [hso] at hrs
                              have hlen : ¬ (est.undoStack ++
                                  [entry]).length > cfg.maxUndoSteps := by
                                simp only [List.length_append,
                                  List.length_cons, List.length_nil]
                                simp only [List.length_cons] at hroom
                                omega
                              have htp : trimPush cfg.maxUndoSteps
                                  est.undoStack entry =
                                  est.undoStack ++ [entry] := by
                                simp only [trimPush]
                                rw [if_neg hlen]
                              simp only [commit, if_true] at hrs
                              simp only [Option.some.injEq,
                                Prod.mk.injEq] at hrs
                              obtain ⟨h1, _⟩ := hrs
                              have hk1 : AreaStore.KeyCoherent s' :=
                                keyCoherent_of_findEq _ _
                                  (keyCoherent_applyWrites (writesOf entry)
                                    est.store hkc) hfe
                              have hc1 : Chain base
                                  (est.undoStack ++ [entry]) s' :=
                                chain_snoc base hbase est.undoStack
                                  est.store s' entry hch hids hfe
                              have hst1 : est1.store = s' := by
                                rw [← h1]
                              have hus1 : est1.undoStack =
                                  est.undoStack ++ [entry] := by
                                rw [← h1]; exact htp
                              have hrs1 : est1.redoStack = [] := by
                                rw [← h1]
                              obtain ⟨hk2, hc2, hr2, hl2⟩ := ih est1 est'
                                (fun s hs => hwf s
                                  (List.mem_cons_of_mem _ hs))
                                (by rw [hst1]; exact hk1)
                                (by rw [hus1, hst1]; exact hc1)
                                hrs1
                                (by
                                  rw [hus1]
                                  simp only [List.length_append,
                                    List.length_cons, List.length_nil]
                                  simp only [List.length_cons] at hroom
                                  omega) h
                              refine ⟨hk2, hc2, hr2, ?_⟩
                              rw [hus1] at hl2
                              simp only [List.length_append,
                                List.length_cons, List.length_nil] at hl2
                              simp only [List.length_cons]
                              omega

/-! ## The stack mechanics of `undo()` / `redo()` -/

theorem undo_snoc (est : EState) (es1 : List HistoryEntry)
    (e : HistoryEntry) (h : est.undoStack = es1 ++ [e]) :
    undo est =
      ({ est with
          store := (applyUndo e est.store).1
          undoStack := es1
          redoStack := est.redoStack ++ [e] },
        (applyUndo e est.store).2) := by
  rcases hap : applyUndo e est.store with ⟨s2, aff⟩
  simp only [undo, h, List.getLast?_concat, hap, List.dropLast_concat]

theorem redo_snoc (est : EState) (fs1 : List HistoryEntry)
    (e : HistoryEntry) (h : est.redoStack = fs1 ++ [e]) :
    redo est =
      ({ est with
          store := (applyRedo e est.store).1
          redoStack := fs1
          undoStack := est.undoStack ++ [e] },
        (applyRedo e est.store).2) := by
  rcases hap : applyRedo e est.store with ⟨s2, aff⟩
  simp only [redo, h, List.getLast?_concat, hap, List.dropLast_concat]

theorem undo_emptyStack (est : EState) (h : est.undoStack = []) :
    undo est = (est, []) := by
  simp [undo, h]

theorem redo_emptyStack (est : EState) (h : est.redoStack = []) :
    redo est = (est, []) := by
  simp [redo, h]

theorem undoN_emptyStack (est : EState) (h : est.undoStack = []) :
    ∀ k, undoN k est = est := by
  intro k
  induction k with
  | zero => rfl
  | succ k ihk => rw [undoN, ihk, undo_emptyStack est h]

theorem redoN_emptyStack (est : EState) (h : est.redoStack = []) :
    ∀ k, redoN k est = est := by
  intro k
  induction k with
  | zero => rfl
  | succ k ihk => rw [redoN, ihk, redo_emptyStack est h]

theorem undoN_add (a b : Nat) (est : EState) :
    undoN (a + b) est = undoN a (undoN b est) := by
  induction a with
  | zero => simp [undoN, Nat.zero_add]
  | succ a iha => rw [Nat.succ_add, undoN, iha, undoN]

theorem redoN_add (a b : Nat) (est : EState) :
    redoN (a + b) est = redoN a (redoN b est) := by
  induction a with
  | zero => simp [redoN, Nat.zero_add]
  | succ a iha => rw [Nat.succ_add, redoN, iha, redoN]

/-- Popping the last `es2.length` entries off the undo stack: the store
has the entries of `es2` undone newest-first, the popped entries sit on
the redo stack in reversed order. -/
theorem undoN_spec :
    ∀ (es2 es1 : List HistoryEntry) (est : EState),
      est.undoStack = es1 ++ es2 →
      undoN es2.length est =
        { est with
            store := undoList es2.reverse est.store
            undoStack := es1
            redoStack := est.redoStack ++ es2.reverse } := by
  intro es2
  induction es2 with
  | nil =>
      intro es1 est hstack
      simp only [List.append_nil] at hstack
      simp only [List.length_nil, undoN, List.reverse_nil, undoList,
        List.foldl_nil, List.append_nil]
      rw [← hstack]
  | cons e rest ih =>
      intro es1 est hstack
      have h1 := ih (es1 ++ [e]) est (by rw [hstack]; simp)
      rw [List.length_cons, undoN, h1]
      rw [undo_snoc _ es1 e rfl]
      simp only [List.reverse_cons, undoList, List.foldl_append,
        List.foldl_cons, List.foldl_nil, List.append_assoc]

/-- The symmetric statement for `redo()`. -/
theorem redoN_spec :
    ∀ (fs2 fs1 : List HistoryEntry) (est : EState),
      est.redoStack = fs1 ++ fs2 →
      redoN fs2.length est =
        { est with
            store := redoList fs2.reverse est.store
            redoStack := fs1
            undoStack := est.undoStack ++ fs2.reverse } := by
  intro fs2
  induction fs2 with
  | nil =>
      intro fs1 est hstack
      simp only [List.append_nil] at hstack
      simp only [List.length_nil, redoN, List.reverse_nil, redoList,
        List.foldl_nil, List.append_nil]
      rw [← hstack]
  | cons e rest ih =>
      intro fs1 est hstack
      have h1 := ih (fs1 ++ [e]) est (by rw [hstack]; simp)
      rw [List.length_cons, redoN, h1]
      rw [redo_snoc _ fs1 e rfl]
      simp only [List.reverse_cons, redoList, List.foldl_append,
        List.foldl_cons, List.foldl_nil, List.append_assoc]

theorem chain_suffix :
    ∀ (es1 : List HistoryEntry) (s : AreaStore),
      AreaStore.KeyCoherent s →
      ∀ (es2 : List HistoryEntry) (t : AreaStore),
      Chain s (es1 ++ es2) t →
      ∃ m, AreaStore.KeyCoherent m ∧ Chain m es2 t := by
  intro es1
  induction es1 with
  | nil => intro s hs es2 t h; exact ⟨s, hs, h⟩
  | cons e rest ih =>
      intro s hs es2 t h
      obtain ⟨_, m0, hm0, hch⟩ := h
      exact ih m0 (keyCoherent_of_findEq _ _
        (keyCoherent_applyWrites (writesOf e) s hs) hm0) es2 t hch

theorem keyCoherent_initStore (areas : List Area) :
    AreaStore.KeyCoherent (initState areas).store :=
  keyCoherent_foldl_addArea areas AreaStore.empty
    AreaStore.keyCoherent_empty

/-- The undo/redo round trip, amended with the two missing side
conditions (`mergeArea` targets distinct, `punchHole` uuid fresh) and
the trim-free bound: after every successful run of at most
`maxUndoSteps` well-formed operations, `undo()` N times followed by
`redo()` N times restores the primary map pointwise and restores both
history stacks — for every N, including N beyond the stack depth. -/
theorem undoRedoN_roundTrip (cfg : Config) (areas : List Area)
    (steps : List Step) (est : EState) (n : Nat)
    (hwf : ∀ st ∈ steps, stepWF st)
    (hroom : steps.length ≤ cfg.maxUndoSteps)
    (hrun : runSteps cfg steps (initState areas) = some est) :
    FindEq (redoN n (undoN n est)).store est.store ∧
      (redoN n (undoN n est)).undoStack = est.undoStack ∧
      (redoN n (undoN n est)).redoStack = [] := by
  have hbase : AreaStore.KeyCoherent (initState areas).store :=
    keyCoherent_initStore areas
  obtain ⟨hkc, hch, hrd, _⟩ := runSteps_inv cfg (initState areas).store
    hbase steps (initState areas) est hwf hbase (findEq_refl _) rfl
    (by simpa [initState] using hroom) hrun
  set L := est.undoStack.length with hL
  set m := min n L with hm
  have hmL : m ≤ L := Nat.min_le_right n L
  have hmn : m ≤ n := Nat.min_le_left n L
  set es1 := est.undoStack.take (L - m) with hes1
  set es2 := est.undoStack.drop (L - m) with hes2
  have hsplit : est.undoStack = es1 ++ es2 :=
    (List.take_append_drop _ _).symm
  have hlen2 : es2.length = m := by
    rw [hes2, List.length_drop]
    omega
  have hU : undoN m est =
      { est with
          store := undoList es2.reverse est.store
          undoStack := es1
          redoStack := est.redoStack ++ es2.reverse } := by
    have h1 := undoN_spec es2 es1 est hsplit
    rwa [hlen2] at h1
  have hnm : n = (n - m) + m := by omega
  have hUabs : undoN n est = undoN m est := by
    rw [hnm, undoN_add]
    by_cases hcase : n ≤ L
    · have hmn' : m = n := by rw [hm]; exact Nat.min_eq_left hcase
      have h0 : n - m = 0 := by omega
      rw [h0]
      rfl
    · have hmL' : m = L := by
        rw [hm]; exact Nat.min_eq_right (le_of_not_le hcase)
      refine undoN_emptyStack _ ?_ (n - m)
      rw [hU]
      show es1 = []
      rw [hes1, hmL']
      simp
  have hred : (undoN m est).redoStack = [] ++ es2.reverse := by
    rw [hU, hrd]
  have hlen2' : es2.reverse.length = m := by
    rw [List.length_reverse, hlen2]
  have hR : redoN m (undoN m est) =
      { est with
          store := redoList es2 (undoList es2.reverse est.store)
          undoStack := es1 ++ es2
          redoStack := [] } := by
    have h2 := redoN_spec es2.reverse [] (undoN m est) hred
    rw [hlen2'] at h2
    rw [h2, hU]
    simp only [List.reverse_reverse]
  have hRabs : redoN n (undoN n est) = redoN m (undoN m est) := by
    rw [hUabs, hnm, redoN_add]
    exact redoN_emptyStack _ (by rw [hR]) (n - m)
  rw [hsplit] at hch
  obtain ⟨mid, hmidkc, hchain2⟩ := chain_suffix es1 (initState areas).store
    hbase es2 est.store hch
  have hrt : FindEq (redoList es2 (undoList es2.reverse est.store))
      est.store := chain_roundTrip mid hmidkc es2 est.store hchain2
  refine ⟨?_, ?_, ?_⟩
  · rw [hRabs, hR]
    exact hrt
  · rw [hRabs, hR]
    exact hsplit.symm
  · rw [hRabs, hR]

/-! ## Further store and history lemmas for the claims -/

theorem trimPush_length (maxN : Nat) (stack : List HistoryEntry)
    (e : HistoryEntry) (h : stack.length ≤ maxN) :
    (trimPush maxN stack e).length ≤ maxN := by
  simp only [trimPush]
  split
  · rename_i hgt
    simp only [List.length_tail, List.length_append, List.length_cons,
      List.length_nil]
    omega
  · rename_i hle
    simp only [List.length_append, List.length_cons, List.length_nil] at hle ⊢
    omega

/-- Every successful run keeps the undo stack within `maxUndoSteps`. -/
theorem runSteps_undoBound (cfg : Config) :
    ∀ (steps : List Step) (est est' : EState),
      est.undoStack.length ≤ cfg.maxUndoSteps →
      runSteps cfg steps est = some est' →
      est'.undoStack.length ≤ cfg.maxUndoSteps := by
  intro steps
  induction steps with
  | nil =>
      intro est est' hb h
      simp only [runSteps, Option.some.injEq] at h
      subst h
      exact hb
  | cons st rest ih =>
      intro est est' hb h
      rw [runSteps] at h
      cases hrs : runStep cfg est st with
      | none => rw [hrs] at h; simp at h
      | some p =>
          obtain ⟨est1, r⟩ := p
          rw [hrs] at h
          cases r with
          | error e => simp at h
          | ok rv =>
              rw [runStep] at hrs
              cases hoc : opCore cfg st est.store with
              | none => rw [hoc] at hrs; simp at hrs
              | some res =>
                  rw [hoc] at hrs
                  cases res with
                  | error e => simp at hrs
                  | ok trip =>
                      obtain ⟨s', opt, ret⟩ := trip
                      cases opt with
                      | none =>
                          simp only [Option.some.injEq,
                            Prod.mk.injEq] at hrs
                          obtain ⟨h1, _⟩ := hrs
                          refine ih est1 est' ?_ h
                          rw [← h1]
                          exact hb
                      | some ec =>
                          obtain ⟨entry, cs⟩ := ec
                          cases hso : st.storageOk with
                          | false =>
                              rw [hso] at hrs
                              simp [commit] at hrs
                          | true =>
                              rw [hso] at hrs
                              simp only [commit, if_true,
                                Option.some.injEq, Prod.mk.injEq] at hrs
                              obtain ⟨h1, _⟩ := hrs
                              refine ih est1 est' ?_ h
                              rw [← h1]
                              exact trimPush_length _ _ _ hb

/-- The undo stack left by `n ≤ depth` calls to `undo()`. -/
theorem undoN_stack (est : EState) (n : Nat)
    (hn : n ≤ est.undoStack.length) :
    (undoN n est).undoStack =
      est.undoStack.take (est.undoStack.length - n) := by
  have h := undoN_spec (est.undoStack.drop (est.undoStack.length - n))
    (est.undoStack.take (est.undoStack.length - n)) est
    (List.take_append_drop _ _).symm
  rw [List.length_drop] at h
  have he : est.undoStack.length - (est.undoStack.length - n) = n := by omega
  rw [he] at h
  rw [h]

/-- Beyond the stack depth, `undo()` has settled: the state is that of
exhausting the stack, whose undo stack is empty. -/
theorem undoN_ge (est : EState) (n : Nat)
    (hn : est.undoStack.length ≤ n) :
    undoN n est = undoN est.undoStack.length est ∧
      (undoN n est).undoStack = [] := by
  have hstack : (undoN est.undoStack.length est).undoStack = [] := by
    have h := undoN_stack est est.undoStack.length le_rfl
    simpa using h
  have heq : undoN n est = undoN est.undoStack.length est := by
    have hnm : n = (n - est.undoStack.length) + est.undoStack.length := by
      omega
    rw [hnm, undoN_add]
    exact undoN_emptyStack _ hstack _
  exact ⟨heq, by rw [heq]; exact hstack⟩

/-- A level with a child level is not a leaf level. -/
theorem getChildLevel_not_leaf (levels : List AreaLevel) (k : String)
    (cl : AreaLevel) (h : getChildLevel levels k = some cl) :
    isLeafLevel levels k = false := by
  rw [getChildLevel] at h
  split at h
  · rename_i hany
    have hmem : cl ∈ levels.reverse := List.mem_of_find?_eq_some h
    have hprop : cl.parent_level_key = some k := by
      have := List.find?_some h
      simpa using this
    have hchild : levels.any (fun l => l.parent_level_key = some k) = true :=
      List.any_eq_true.mpr ⟨cl, List.mem_reverse.mp hmem, by simp [hprop]⟩
    simp [isLeafLevel, hany, hchild]
  · cases h

theorem mem_setAdd_self {α : Type} [DecidableEq α] (s : List α) (x : α) :
    x ∈ setAdd s x := by
  rw [setAdd]
  split
  · assumption
  · simp

theorem mapFind_append_left_none {κ ν : Type} [DecidableEq κ]
    (l m : List (κ × ν)) (k : κ) (h : mapFind l k = none) :
    mapFind (l ++ m) k = mapFind m k := by
  induction l with
  | nil => rfl
  | cons e rest ih =>
      rw [mapFind_cons] at h
      rw [List.cons_append, mapFind_cons]
      split at h
      · cases h
      · rename_i hek
        rw [if_neg hek]
        exact ih h

/-- After `idxAdd l k x`, the set at `k` holds `x`. -/
theorem mem_idxAdd_self {κ : Type} [DecidableEq κ]
    (l : List (κ × List String)) (k : κ) (x : String) :
    x ∈ (mapFind (AreaStore.idxAdd l k x) k).getD [] := by
  rw [AreaStore.idxAdd]
  cases hf : mapFind l k with
  | some st =>
      rw [mapFind_mapSet]
      simp only [if_pos rfl, Option.getD_some]
      exact mem_setAdd_self st x
  | none =>
      rw [mapFind_append_left_none l _ k hf]
      simp [mapFind]

/-! ## Concrete fixtures

A two-level taxonomy (`country` above `city`), a handful of areas, and
a configuration with trivially-behaved external geometry kernels; used
by the witnesses and counterexamples below. -/

def countryLevel : AreaLevel :=
  { key := "country", name := "Country", parent_level_key := none }

def cityLevel : AreaLevel :=
  { key := "city", name := "City", parent_level_key := some "country" }

def demoLevels : List AreaLevel := [countryLevel, cityLevel]

/-- The closed unit-square ring with its lower-left corner at `(o, 0)`. -/
def sqRing (o : ℚ) : List Coord :=
  [(o, 0), (o + 1, 0), (o + 1, 1), (o, 1), (o, 0)]

def demoCfg : Config :=
  { levels := demoLevels
    maxUndoSteps := 100
    epsilonOpt := none
    splitFn := fun _ _ => []
    kDifference := fun g _ => some g
    kUnion := fun g _ => some g }

/-- The same configuration with the history bound of the `C5` fixture. -/
def demoCfg2 : Config := { demoCfg with maxUndoSteps := 2 }

def areaP : Area :=
  { id := "P", display_name := "Parent", level_key := "country"
    parent_id := none, geometry := .polygon [sqRing 0], metadata := none
    created_at := 0, updated_at := 0, is_implicit := false }

def areaQ : Area :=
  { id := "Q", display_name := "Other parent", level_key := "country"
    parent_id := none, geometry := .polygon [sqRing 4], metadata := none
    created_at := 0, updated_at := 0, is_implicit := false }

def areaX : Area :=
  { id := "X", display_name := "Ex", level_key := "city"
    parent_id := some "P", geometry := .polygon [sqRing 0], metadata := none
    created_at := 0, updated_at := 0, is_implicit := false }

def areaY : Area :=
  { id := "Y", display_name := "Wye", level_key := "city"
    parent_id := some "P", geometry := .polygon [sqRing 1], metadata := none
    created_at := 0, updated_at := 0, is_implicit := false }

/-- A non-degenerate closed triangle draft. -/
def triDraft : DraftShape :=
  { points := [⟨0, 0⟩, ⟨0, 2⟩, ⟨2, 2⟩], isClosed := true }

/-! ## Claim C1 -/

def c1Step : Step := ⟨.rename "X" "Renamed", 5, 9, true⟩

def c1Est : EState :=
  (runSteps demoCfg [c1Step] (initState [areaP, areaX])).getD (initState [])

def c1MergeStep : Step := ⟨.mergeArea "X" "X", 5, 9, true⟩

def c1CexEst : EState :=
  (runSteps demoCfg [c1MergeStep] (initState [areaP, areaX])).getD
    (initState [])

/-- **C1** (corrected).  Undo/redo round trip: for every initialized
editor and every trim-free sequence of successful edit operations, N
`undo()` calls followed by N `redo()` calls restore the Area Store
pointwise (same ids, same after-images) and restore both history
stacks — amended with the side conditions `stepWF` (a `mergeArea` call
targets two distinct ids, a `punchHole` uuid differs from its target):
without them the property is false, see
`C1_merge_self_counterexample`. -/
theorem C1_undo_redo_round_trip (cfg : Config) (areas : List Area)
    (steps : List Step) (est : EState) (n : Nat)
    (hwf : ∀ st ∈ steps, stepWF st)
    (hroom : steps.length ≤ cfg.maxUndoSteps)
    (hrun : runSteps cfg steps (initState areas) = some est) :
    FindEq (redoN n (undoN n est)).store est.store ∧
      (redoN n (undoN n est)).undoStack = est.undoStack ∧
      (redoN n (undoN n est)).redoStack = [] :=
  undoRedoN_roundTrip cfg areas steps est n hwf hroom hrun

/-- Witness: one successful `renameArea` on a two-area store, one
undo, one redo. -/
theorem C1_undo_redo_round_trip_witness :
    FindEq (redoN 1 (undoN 1 c1Est)).store c1Est.store ∧
      (redoN 1 (undoN 1 c1Est)).undoStack = c1Est.undoStack ∧
      (redoN 1 (undoN 1 c1Est)).redoStack = [] :=
  C1_undo_redo_round_trip demoCfg [areaP, areaX] [c1Step] c1Est 1
    (by
      intro st hst
      rw [List.mem_singleton] at hst
      subst hst
      trivial)
    (by decide) rfl

/-- Counterexample to the claim as stated: `mergeArea "X" "X"` is a
successful, trim-free run after which `"X"` is deleted from the store,
yet one undo followed by one redo resurrects `"X"` — the round trip
does not return to the pre-undo state. -/
theorem C1_merge_self_counterexample :
    runSteps demoCfg [c1MergeStep] (initState [areaP, areaX]) =
      some c1CexEst ∧
    c1CexEst.undoStack.length ≤ demoCfg.maxUndoSteps ∧
    c1CexEst.store.find "X" = none ∧
    (redoN 1 (undoN 1 c1CexEst)).store.find "X" ≠ none :=
  ⟨rfl, by decide, rfl, by decide⟩

/-! ## Claim C2 -/

def c2Iid : String := makeImplicitId "P" "city"

def c2Store : AreaStore := (initState [areaP]).store

def c2Res : CoreRes := coreUpdateAreaGeometry demoCfg 7 9 c2Store c2Iid
  triDraft

/-- Whether a core result is a success carrying a history entry. -/
def corePushed : CoreRes → Bool
  | some (.ok (_, some _, _)) => true
  | _ => false

/-- The mutated store of a successful core result. -/
def coreStore : CoreRes → Option AreaStore
  | some (.ok (t, _, _)) => some t
  | _ => none

unseal Rat.mul Rat.add Rat.sub Rat.inv in
/-- **C2** (code bug).  The specification requires `renameArea`,
`deleteArea` and `updateAreaGeometry` to signal `AreaNotFound` on an
implicit id and leave the store unchanged.  `renameArea` and
`deleteArea` do; but `updateAreaGeometry` has no `is_implicit` guard:
on the implicit id `__implicit__P__city` — which resolves to a
synthesized implicit child — it succeeds, pushes a history entry, and
materialises an explicit record under the implicit id (still flagged
`is_implicit`). -/
theorem C2_updateAreaGeometry_accepts_implicit_id :
    (AreaStore.getArea demoCfg.levels c2Store c2Iid).map Area.is_implicit =
      some true ∧
    c2Store.find c2Iid = none ∧
    coreRename demoCfg 7 c2Store c2Iid "nn" = some (.error .areaNotFound) ∧
    coreDeleteArea demoCfg 7 9 c2Store c2Iid false =
      some (.error .areaNotFound) ∧
    corePushed c2Res = true ∧
    ((coreStore c2Res).bind (fun t => t.find c2Iid)).map Area.is_implicit =
      some true := by
  refine ⟨rfl, rfl, rfl, rfl, ?_, ?_⟩ <;> decide

/-! ## Claim C3 -/

def c3Step : Step := ⟨.rename "X" "N", 5, 9, false⟩

def c3Pair : EState × Except EditErr RetVal :=
  (runStep demoCfg (initState [areaP, areaX]) c3Step).getD
    (initState [], .ok (.retAreas []))

/-- **C3** (corrected).  When the single outbound batch-write call
fails with `StorageError`, the in-memory store mutation is retained
(not rolled back) and the change set was handed to the adapter — but,
contrary to the claim, the operation's history entry is NOT on the
undo stack: the source calls `pushHistory` only after `callBatchWrite`
resolves, so both stacks are exactly as before the call and `undo()`
cannot revert the failed operation. -/
theorem C3_storage_failure_no_history_entry (cfg : Config) (est : EState)
    (st : Step) (est' : EState)
    (h : runStep cfg est st = some (est', .error .storage)) :
    est'.undoStack = est.undoStack ∧ est'.redoStack = est.redoStack ∧
      st.storageOk = false ∧
      ∃ s' entry cs ret,
        opCore cfg st est.store = some (.ok (s', some (entry, cs), ret)) ∧
          est'.store = s' ∧ est'.writes = est.writes ++ [cs] := by
  rw [runStep] at h
  cases hoc : opCore cfg st est.store with
  | none => rw [hoc] at h; simp at h
  | some res =>
      rw [hoc] at h
      cases res with
      | error e => simp at h
      | ok trip =>
          obtain ⟨s', opt, ret⟩ := trip
          cases opt with
          | none => simp at h
          | some ec =>
              obtain ⟨entry, cs⟩ := ec
              cases hso : st.storageOk with
              | true =>
                  rw [hso] at h
                  simp [commit] at h
              | false =>
                  rw [hso] at h
                  simp only [commit, Bool.false_eq_true, if_false,
                    Option.some.injEq, Prod.mk.injEq] at h
                  obtain ⟨h, -⟩ := h
                  subst h
                  exact ⟨rfl, rfl, rfl, s', entry, cs, ret, rfl, rfl, rfl⟩

/-- Witness: a storage-failing `renameArea`. -/
theorem C3_storage_failure_witness :
    c3Pair.1.undoStack = (initState [areaP, areaX]).undoStack ∧
      c3Pair.1.redoStack = (initState [areaP, areaX]).redoStack ∧
      c3Step.storageOk = false ∧
      ∃ s' entry cs ret,
        opCore demoCfg c3Step (initState [areaP, areaX]).store =
          some (.ok (s', some (entry, cs), ret)) ∧
          c3Pair.1.store = s' ∧
          c3Pair.1.writes = (initState [areaP, areaX]).writes ++ [cs] :=
  C3_storage_failure_no_history_entry demoCfg (initState [areaP, areaX])
    c3Step c3Pair.1 rfl

/-- Counterexample to the claim as stated: after the storage-failing
rename the store is mutated but the undo stack is empty — there is no
entry the caller could `undo()`. -/
theorem C3_no_entry_counterexample :
    runStep demoCfg (initState [areaP, areaX]) c3Step =
      some (c3Pair.1, .error .storage) ∧
    c3Pair.1.undoStack = [] ∧
    c3Pair.1.store.find "X" ≠ (initState [areaP, areaX]).store.find "X" :=
  ⟨rfl, rfl, by decide⟩

/-! ## Claim C4 -/

def c4Item : AreaInput :=
  { display_name := "Bad", level_key := "nope", parent_id := none
    geometry := .polygon [sqRing 0], metadata := none }

def c4Step : Step := ⟨.bulkCreate [c4Item] (fun _ => "F"), 5, 9, true⟩

def c4Pair : EState × Except EditErr RetVal :=
  (runStep demoCfg (initState [areaP]) c4Step).getD
    (initState [], .ok (.retAreas []))

/-- **C4** (confirmed).  `bulkCreate` is all-or-nothing: whenever the
fail-fast per-item validation loop reports an error (unknown level
key, missing parent, or parent/level mismatch), the call surfaces
exactly that validation error and the editor state is completely
unchanged — same store (no area added, no ancestor geometry touched),
same history stacks (no entry pushed), and same batch-write log (the
adapter is never called). -/
theorem C4_bulkCreate_fail_fast (cfg : Config) (est : EState)
    (items : List AreaInput) (freshIds : Nat → String) (now fuel : Nat)
    (sok : Bool) (err : VErr) (est' : EState) (r : Except EditErr RetVal)
    (hinv : bulkValidate cfg est.store items = some err)
    (h : runStep cfg est ⟨.bulkCreate items freshIds, now, fuel, sok⟩ =
      some (est', r)) :
    r = .error (.v err) ∧ est' = est := by
  have hne : ¬ items.length = 0 := by
    intro h0
    rw [List.length_eq_zero] at h0
    subst h0
    simp [bulkValidate] at hinv
  have hoc : opCore cfg ⟨.bulkCreate items freshIds, now, fuel, sok⟩
      est.store = some (.error err) := by
    show coreBulkCreate cfg now fuel est.store items freshIds = _
    rw [coreBulkCreate, if_neg hne, hinv]
  rw [runStep, hoc] at h
  simp only [Option.some.injEq, Prod.mk.injEq] at h
  obtain ⟨h1, h2⟩ := h
  exact ⟨h2.symm, h1.symm⟩

/-- Witness: a single-item `bulkCreate` with an unknown level key. -/
theorem C4_bulkCreate_fail_fast_witness :
    c4Pair.2 = .error (.v .areaLevelNotFound) ∧
      c4Pair.1 = initState [areaP] :=
  C4_bulkCreate_fail_fast demoCfg (initState [areaP]) [c4Item]
    (fun _ => "F") 5 9 true .areaLevelNotFound c4Pair.1 c4Pair.2 rfl rfl

/-! ## Claim C5 -/

/-- The number of entry-pushing operations of a run: the steps whose
core succeeds with a history entry and whose batch write succeeds,
evaluated along the run's own store thread.  (Past a failing step the
run aborts, so the count stops there.) -/
def pushCount (cfg : Config) : List Step → AreaStore → Nat
  | [], _ => 0
  | st :: rest, s =>
      match opCore cfg st s with
      | some (.ok (s', some _, _)) =>
          if st.storageOk then pushCount cfg rest s' + 1 else 0
      | some (.ok (s', none, _)) => pushCount cfg rest s'
      | _ => 0

/-- `pushHistory` leaves exactly `min (depth + 1) maxUndoSteps`
entries: the entry is appended and the oldest entry dropped when the
bound is exceeded. -/
theorem trimPush_length_eq (maxN : Nat) (stack : List HistoryEntry)
    (e : HistoryEntry) (h : stack.length ≤ maxN) :
    (trimPush maxN stack e).length = min (stack.length + 1) maxN := by
  simp only [trimPush]
  split
  · rename_i hgt
    simp only [List.length_append, List.length_cons,
      List.length_nil] at hgt
    simp only [List.length_tail, List.length_append, List.length_cons,
      List.length_nil]
    omega
  · rename_i hle
    simp only [List.length_append, List.length_cons,
      List.length_nil] at hle ⊢
    omega

/-- Per-call stack mechanics: every editor call either pushes its
history entry at the tail of the undo stack, clears the redo stack,
and drops the oldest entry exactly when the bound is exceeded — or
(on a validation error, a storage failure, or an entry-less success)
leaves both stacks unchanged. -/
theorem runStep_stack_mechanics (cfg : Config) (est0 : EState) (st : Step)
    (est1 : EState) (r : Except EditErr RetVal)
    (h : runStep cfg est0 st = some (est1, r)) :
    (∃ s' entry cs ret,
      opCore cfg st est0.store = some (.ok (s', some (entry, cs), ret)) ∧
      st.storageOk = true ∧ r = .ok ret ∧ est1.redoStack = [] ∧
      (if cfg.maxUndoSteps < est0.undoStack.length + 1
        then est1.undoStack = (est0.undoStack ++ [entry]).tail
        else est1.undoStack = est0.undoStack ++ [entry])) ∨
    (est1.undoStack = est0.undoStack ∧ est1.redoStack = est0.redoStack) := by
  rw [runStep] at h
  cases hoc : opCore cfg st est0.store with
  | none => rw [hoc] at h; simp at h
  | some res =>
      rw [hoc] at h
      cases res with
      | error e =>
          simp only [Option.some.injEq, Prod.mk.injEq] at h
          obtain ⟨h1, _⟩ := h
          subst h1
          exact Or.inr ⟨rfl, rfl⟩
      | ok trip =>
          obtain ⟨s', opt, ret⟩ := trip
          cases opt with
          | none =>
              simp only [Option.some.injEq, Prod.mk.injEq] at h
              obtain ⟨h1, _⟩ := h
              subst h1
              exact Or.inr ⟨rfl, rfl⟩
          | some ec =>
              obtain ⟨entry, cs⟩ := ec
              cases hso : st.storageOk with
              | false =>
                  rw [hso] at h
                  simp only [commit, Bool.false_eq_true, if_false,
                    Option.some.injEq, Prod.mk.injEq] at h
                  obtain ⟨h1, _⟩ := h
                  subst h1
                  exact Or.inr ⟨rfl, rfl⟩
              | true =>
                  rw [hso] at h
                  simp only [commit, if_true, Option.some.injEq,
                    Prod.mk.injEq] at h
                  obtain ⟨h1, h2⟩ := h
                  subst h1
                  left
                  refine ⟨s', entry, cs, ret, rfl, rfl, h2.symm, rfl, ?_⟩
                  by_cases hc : cfg.maxUndoSteps < est0.undoStack.length + 1
                  · rw [if_pos hc]
                    show trimPush cfg.maxUndoSteps est0.undoStack entry =
                      (est0.undoStack ++ [entry]).tail
                    simp only [trimPush]
                    rw [if_pos]
                    simp only [List.length_append, List.length_cons,
                      List.length_nil]
                    omega
                  · rw [if_neg hc]
                    show trimPush cfg.maxUndoSteps est0.undoStack entry =
                      est0.undoStack ++ [entry]
                    simp only [trimPush]
                    rw [if_neg]
                    simp only [List.length_append, List.length_cons,
                      List.length_nil]
                    omega

/-- The undo-stack depth of a successful run is the number of
entry-pushing operations capped at `maxUndoSteps`; the redo stack ends
cleared or untouched. -/
theorem runSteps_depth (cfg : Config) :
    ∀ (steps : List Step) (est est' : EState),
      est.undoStack.length ≤ cfg.maxUndoSteps →
      runSteps cfg steps est = some est' →
      est'.undoStack.length =
        min (est.undoStack.length + pushCount cfg steps est.store)
          cfg.maxUndoSteps ∧
      (est'.redoStack = est.redoStack ∨ est'.redoStack = []) := by
  intro steps
  induction steps with
  | nil =>
      intro est est' hb h
      simp only [runSteps, Option.some.injEq] at h
      subst h
      refine ⟨?_, Or.inl rfl⟩
      simp only [pushCount]
      omega
  | cons st rest ih =>
      intro est est' hb h
      rw [runSteps] at h
      cases hrs : runStep cfg est st with
      | none => rw [hrs] at h; simp at h
      | some p =>
          obtain ⟨est1, r⟩ := p
          rw [hrs] at h
          cases r with
          | error e => simp at h
          | ok rv =>
              rw [runStep] at hrs
              cases hoc : opCore cfg st est.store with
              | none => rw [hoc] at hrs; simp at hrs
              | some res =>
                  rw [hoc] at hrs
                  cases res with
                  | error e => simp at hrs
                  | ok trip =>
                      obtain ⟨s', opt, ret⟩ := trip
                      cases opt with
                      | none =>
                          simp only [Option.some.injEq,
                            Prod.mk.injEq] at hrs
                          obtain ⟨h1, _⟩ := hrs
                          have hstack1 : est1.undoStack = est.undoStack := by
                            rw [← h1]
                          have hstore1 : est1.store = s' := by
                            rw [← h1]
                          have hredo1 : est1.redoStack = est.redoStack := by
                            rw [← h1]
                          have hpc : pushCount cfg (st :: rest) est.store =
                              pushCount cfg rest s' := by
                            rw [pushCount, hoc]
                          obtain ⟨hlen, hredo⟩ := ih est1 est'
                            (by rw [hstack1]; exact hb) h
                          rw [hstack1, hstore1] at hlen
                          refine ⟨by rw [hpc]; exact hlen, ?_⟩
                          rcases hredo with hr | hr
                          · rw [hredo1] at hr
                            exact Or.inl hr
                          · exact Or.inr hr
                      | some ec =>
                          obtain ⟨entry, cs⟩ := ec
                          cases hso : st.storageOk with
                          | false =>
                              rw [hso] at hrs
                              simp [commit] at hrs
                          | true =>
                              rw [hso] at hrs
                              simp only [commit, if_true,
                                Option.some.injEq, Prod.mk.injEq] at hrs
                              obtain ⟨h1, _⟩ := hrs
                              have hstack1 : est1.undoStack =
                                  trimPush cfg.maxUndoSteps est.undoStack
                                    entry := by
                                rw [← h1]
                              have hstore1 : est1.store = s' := by
                                rw [← h1]
                              have hredo1 : est1.redoStack = [] := by
                                rw [← h1]
                              have hpc : pushCount cfg (st :: rest)
                                  est.store =
                                  pushCount cfg rest s' + 1 := by
                                rw [pushCount, hoc, hso]
                                rfl
                              have htl := trimPush_length_eq
                                cfg.maxUndoSteps est.undoStack entry hb
                              obtain ⟨hlen, hredo⟩ := ih est1 est'
                                (by
                                  rw [hstack1, htl]
                                  exact Nat.min_le_right _ _) h
                              rw [hstack1, hstore1, htl] at hlen
                              refine ⟨?_, ?_⟩
                              · rw [hpc]
                                omega
                              · rcases hredo with hr | hr
                                · rw [hredo1] at hr
                                  exact Or.inr hr
                                · exact Or.inr hr

def c5Steps : List Step :=
  [⟨.rename "X" "A", 1, 9, true⟩, ⟨.rename "X" "B", 2, 9, true⟩,
    ⟨.rename "X" "C", 3, 9, true⟩]

def c5Est : EState :=
  (runSteps demoCfg2 c5Steps (initState [areaP, areaX])).getD (initState [])

def c5CexSteps : List Step :=
  [⟨.bulkCreate [] (fun _ => "F"), 1, 9, true⟩,
    ⟨.bulkCreate [] (fun _ => "F"), 2, 9, true⟩,
    ⟨.bulkCreate [] (fun _ => "F"), 3, 9, true⟩]

def c5CexEst : EState :=
  (runSteps demoCfg2 c5CexSteps (initState [areaP])).getD (initState [areaX])

/-- **C5** (corrected).  History bound: every editor call either
pushes its history entry at the tail, clears the redo stack, and drops
the oldest entry exactly when the bound is exceeded, or leaves both
stacks unchanged; consequently after every successful run the undo
stack holds exactly `min (number of entry-pushing operations)
maxUndoSteps` entries (hence at most `maxUndoSteps`), the redo stack
is empty, each `undo()` below that depth pops an entry, and once the
stack is exhausted every further `undo()` returns the empty list and
mutates nothing.  Amended: the depth counts *entry-pushing*
operations, not successful operations — `bulkCreate []` and a no-piece
split succeed without pushing, so "after M > max_undo_steps operations
exactly max_undo_steps undo calls return non-empty results" is false
as stated, see `C5_empty_bulkCreate_counterexample`. -/
theorem C5_history_bound (cfg : Config) (areas : List Area)
    (steps : List Step) (est : EState)
    (hrun : runSteps cfg steps (initState areas) = some est) :
    est.undoStack.length =
      min (pushCount cfg steps (initState areas).store)
        cfg.maxUndoSteps ∧
    est.undoStack.length ≤ cfg.maxUndoSteps ∧
    est.redoStack = [] ∧
    (∀ n, n < est.undoStack.length → (undoN n est).undoStack ≠ []) ∧
    (∀ n, est.undoStack.length ≤ n →
      undo (undoN n est) = (undoN n est, [])) ∧
    (∀ est0 st est1 r, runStep cfg est0 st = some (est1, r) →
      (∃ s' entry cs ret,
        opCore cfg st est0.store =
          some (.ok (s', some (entry, cs), ret)) ∧
        st.storageOk = true ∧ r = .ok ret ∧ est1.redoStack = [] ∧
        (if cfg.maxUndoSteps < est0.undoStack.length + 1
          then est1.undoStack = (est0.undoStack ++ [entry]).tail
          else est1.undoStack = est0.undoStack ++ [entry])) ∨
      (est1.undoStack = est0.undoStack ∧
        est1.redoStack = est0.redoStack)) := by
  obtain ⟨hdepth, hredo⟩ := runSteps_depth cfg steps (initState areas) est
    (by simp [initState]) hrun
  have hdepth' : est.undoStack.length =
      min (pushCount cfg steps (initState areas).store)
        cfg.maxUndoSteps := by
    rw [hdepth]
    simp [initState]
  refine ⟨hdepth', ?_, ?_, ?_, ?_, ?_⟩
  · rw [hdepth']
    exact Nat.min_le_right _ _
  · rcases hredo with hr | hr
    · exact hr
    · exact hr
  · intro n hn
    rw [undoN_stack est n (le_of_lt hn)]
    intro hempty
    have hlen := congrArg List.length hempty
    simp only [List.length_take, List.length_nil] at hlen
    omega
  · intro n hn
    exact undo_emptyStack _ (undoN_ge est n hn).2
  · intro est0 st est1 r h
    exact runStep_stack_mechanics cfg est0 st est1 r h

/-- Witness: three successful renames against a bound of two — three
entry-pushing operations, a stack trimmed to `min 3 2 = 2` entries,
two undos pop them, the third is a no-op. -/
theorem C5_history_bound_witness :
    c5Est.undoStack.length =
      min (pushCount demoCfg2 c5Steps
        (initState [areaP, areaX]).store) demoCfg2.maxUndoSteps ∧
    c5Est.undoStack.length ≤ demoCfg2.maxUndoSteps ∧
    c5Est.redoStack = [] ∧
    (∀ n, n < c5Est.undoStack.length →
      (undoN n c5Est).undoStack ≠ []) ∧
    (∀ n, c5Est.undoStack.length ≤ n →
      undo (undoN n c5Est) = (undoN n c5Est, [])) ∧
    (∀ est0 st est1 r, runStep demoCfg2 est0 st = some (est1, r) →
      (∃ s' entry cs ret,
        opCore demoCfg2 st est0.store =
          some (.ok (s', some (entry, cs), ret)) ∧
        st.storageOk = true ∧ r = .ok ret ∧ est1.redoStack = [] ∧
        (if demoCfg2.maxUndoSteps < est0.undoStack.length + 1
          then est1.undoStack = (est0.undoStack ++ [entry]).tail
          else est1.undoStack = est0.undoStack ++ [entry])) ∨
      (est1.undoStack = est0.undoStack ∧
        est1.redoStack = est0.redoStack)) :=
  C5_history_bound demoCfg2 [areaP, areaX] c5Steps c5Est rfl

/-- Counterexample to the claim as stated: three successful
`bulkCreate []` calls against a bound of two leave an *empty* undo
stack — the very first `undo()` already returns the empty list, not
the promised `max_undo_steps` non-empty results. -/
theorem C5_empty_bulkCreate_counterexample :
    runSteps demoCfg2 c5CexSteps (initState [areaP]) = some c5CexEst ∧
      c5CexSteps.length = 3 ∧ demoCfg2.maxUndoSteps = 2 ∧
      c5CexEst.undoStack = [] ∧
      undo c5CexEst = (c5CexEst, []) :=
  ⟨rfl, rfl, rfl, rfl, rfl⟩

/-! ## Claim C6 -/

/-- **C6** (confirmed).  `getChildren` is the three-way case split of
the specification: with one or more explicit children it returns
exactly those; otherwise, for a missing parent id it returns the empty
list; for an existing parent whose level has no child level it returns
the empty list; and for an existing parent with a child level it
returns the single synthesized implicit child at that level, carrying
the parent's geometry and timestamps with `is_implicit = true`. -/
theorem C6_getChildren_three_way (levels : List AreaLevel) (s : AreaStore)
    (pid : String) :
    (s.getExplicitChildren pid ≠ [] →
      AreaStore.getChildren levels s pid = s.getExplicitChildren pid) ∧
    (s.getExplicitChildren pid = [] → s.find pid = none →
      AreaStore.getChildren levels s pid = []) ∧
    (∀ parent, s.getExplicitChildren pid = [] →
      s.find pid = some parent →
      getChildLevel levels parent.level_key = none →
      AreaStore.getChildren levels s pid = []) ∧
    (∀ parent cl, s.getExplicitChildren pid = [] →
      s.find pid = some parent →
      getChildLevel levels parent.level_key = some cl →
      AreaStore.getChildren levels s pid =
        [AreaStore.synthesizeImplicitChild parent cl.key] ∧
      (AreaStore.synthesizeImplicitChild parent cl.key).is_implicit =
        true ∧
      (AreaStore.synthesizeImplicitChild parent cl.key).geometry =
        parent.geometry ∧
      (AreaStore.synthesizeImplicitChild parent cl.key).created_at =
        parent.created_at ∧
      (AreaStore.synthesizeImplicitChild parent cl.key).updated_at =
        parent.updated_at) := by
  refine ⟨?_, ?_, ?_, ?_⟩
  · intro h
    simp only [AreaStore.getChildren]
    rw [if_pos (List.length_pos.mpr h)]
  · intro hex hfind
    simp [AreaStore.getChildren, hex, hfind]
  · intro parent hex hfind hcl
    cases hleaf : isLeafLevel levels parent.level_key
    · simp [AreaStore.getChildren, hex, hfind, hleaf, hcl]
    · simp [AreaStore.getChildren, hex, hfind, hleaf]
  · intro parent cl hex hfind hcl
    have hleaf : isLeafLevel levels parent.level_key = false :=
      getChildLevel_not_leaf levels parent.level_key cl hcl
    refine ⟨?_, rfl, rfl, rfl, rfl⟩
    simp [AreaStore.getChildren, hex, hfind, hleaf, hcl]

/-- Witness: the childless non-leaf parent `P` yields exactly its
synthesized implicit city-level child. -/
theorem C6_getChildren_three_way_witness :
    AreaStore.getChildren demoLevels c2Store "P" =
      [AreaStore.synthesizeImplicitChild areaP cityLevel.key] :=
  ((C6_getChildren_three_way demoLevels c2Store "P").2.2.2 areaP cityLevel
    rfl rfl rfl).1

/-! ## Claim C7 -/

/-- **C7** (corrected).  The synthesized implicit child's identifier is
deterministic and repeated queries return equal virtual records:
`getArea` on the identifier and `getChildren` on the parent both
return the same synthesized record.  Amended: the identifier format is
`__implicit__<parent_id>__<child_level_key>` (the source's
`IMPLICIT_PREFIX` is `"__implicit__"` with `"__"` separators), not the
`implicit:<parent_id>:<child_level_key>` format the specification
states — see `C7_spec_format_counterexample`. -/
theorem C7_implicit_id_resolution (levels : List AreaLevel)
    (s : AreaStore) (parent : Area) (cl : AreaLevel) (pid : String)
    (hfind : s.find pid = some parent) (hid : parent.id = pid)
    (hiid : s.find (makeImplicitId pid cl.key) = none)
    (hparse : parseImplicitId (makeImplicitId pid cl.key) =
      some (pid, cl.key))
    (hcl : getChildLevel levels parent.level_key = some cl)
    (hnochild : s.getExplicitChildren pid = []) :
    AreaStore.getArea levels s (makeImplicitId pid cl.key) =
      some (AreaStore.synthesizeImplicitChild parent cl.key) ∧
    AreaStore.getChildren levels s pid =
      [AreaStore.synthesizeImplicitChild parent cl.key] ∧
    makeImplicitId pid cl.key = "__implicit__" ++ pid ++ "__" ++ cl.key := by
  have hleaf : isLeafLevel levels parent.level_key = false :=
    getChildLevel_not_leaf levels parent.level_key cl hcl
  refine ⟨?_, ?_, rfl⟩
  · simp only [AreaStore.getArea, hiid, hparse, hfind, hcl, hid, hnochild]
    simp
  · simp [AreaStore.getChildren, hnochild, hfind, hleaf, hcl]

/-- Witness: the fixture parent `P` with child level `city`. -/
theorem C7_implicit_id_resolution_witness :
    AreaStore.getArea demoLevels c2Store
        (makeImplicitId "P" cityLevel.key) =
      some (AreaStore.synthesizeImplicitChild areaP cityLevel.key) ∧
    AreaStore.getChildren demoLevels c2Store "P" =
      [AreaStore.synthesizeImplicitChild areaP cityLevel.key] ∧
    makeImplicitId "P" cityLevel.key =
      "__implicit__" ++ "P" ++ "__" ++ cityLevel.key :=
  C7_implicit_id_resolution demoLevels c2Store areaP cityLevel "P"
    rfl rfl rfl rfl rfl rfl

/-- Counterexample to the claim as stated: the identifier the code
builds is `__implicit__P__city`, not `implicit:P:city`; the latter
does not resolve at all. -/
theorem C7_spec_format_counterexample :
    makeImplicitId "P" "city" = "__implicit__P__city" ∧
    makeImplicitId "P" "city" ≠ "implicit:P:city" ∧
    AreaStore.getArea demoLevels c2Store "implicit:P:city" = none ∧
    (AreaStore.getArea demoLevels c2Store "__implicit__P__city").isSome =
      true :=
  ⟨rfl, by decide, rfl, rfl⟩

/-! ## Claim C8 -/

/-- **C8** (corrected).  `validateDraft` reports `TOO_FEW_VERTICES`
exactly when a closed draft has fewer than 3 *points* or an open draft
has fewer than 2 *points* — the raw point count, duplicates included,
not the count of distinct vertices the specification states: a closed
draft of three equal points is not reported as `TOO_FEW_VERTICES`, see
`C8_duplicate_vertices_counterexample`. -/
theorem C8_too_few_vertices_raw_count (d : DraftShape) :
    VCode.TOO_FEW_VERTICES ∈ validateDraft d ↔
      (d.isClosed = true ∧ d.points.length < 3) ∨
        (d.isClosed = false ∧ d.points.length < 2) := by
  obtain ⟨ps, c⟩ := d
  cases c with
  | false =>
      by_cases h2 : ps.length < 2 <;> simp [validateDraft, h2]
  | true =>
      by_cases h3 : ps.length < 3
      · simp [validateDraft, h3]
      · apply iff_of_false
        · simp only [validateDraft, if_true, if_neg h3]
          intro hmem
          rcases List.mem_append.mp hmem with hm | hm <;> revert hm <;>
            split <;> simp
        · simp [h3]

unseal Rat.mul Rat.add Rat.sub Rat.inv in
/-- Counterexample to the claim as stated: a closed draft of three
identical points has a single distinct vertex, yet the validator
reports `ZERO_AREA`, not `TOO_FEW_VERTICES` (the early return tests
`points.length < 3` on the raw list). -/
theorem C8_duplicate_vertices_counterexample :
    (([⟨1, 1⟩, ⟨1, 1⟩, ⟨1, 1⟩] : List Pt).dedup.length < 3) ∧
    validateDraft ⟨[⟨1, 1⟩, ⟨1, 1⟩, ⟨1, 1⟩], true⟩ = [.ZERO_AREA] ∧
    VCode.TOO_FEW_VERTICES ∉
      validateDraft ⟨[⟨1, 1⟩, ⟨1, 1⟩, ⟨1, 1⟩], true⟩ := by
  have hv : validateDraft ⟨[⟨1, 1⟩, ⟨1, 1⟩, ⟨1, 1⟩], true⟩ =
      [.ZERO_AREA] := by decide
  refine ⟨by decide, hv, ?_⟩
  rw [hv]
  simp

/-! ## Claim C9 -/

/-- **C9** (confirmed).  Frame property of `reparentArea`: on every
successful call the history entry creates and deletes nothing and
records exactly one modified pair — the target area with its
`parent_id` swapped and `updated_at` refreshed; the target's record in
the store is that after-image, and the record of every other id (both
parent chains included) is untouched: no ancestor-geometry propagation
is performed. -/
theorem C9_reparent_frame (cfg : Config) (now fuel : Nat) (s : AreaStore)
    (hs : AreaStore.KeyCoherent s) (areaId : String)
    (newParentId : Option String) (s' : AreaStore) (entry : HistoryEntry)
    (cs : ChangeSet) (ret : RetVal)
    (h : coreReparentArea cfg now fuel s areaId newParentId =
      some (.ok (s', some (entry, cs), ret))) :
    entry.created = [] ∧ entry.deleted = [] ∧
    ∃ area, AreaStore.getArea cfg.levels s areaId = some area ∧
      entry.modified =
        [⟨area, { area with parent_id := newParentId, updated_at := now }⟩] ∧
      s'.find areaId =
        some { area with parent_id := newParentId, updated_at := now } ∧
      ∀ x, x ≠ areaId → s'.find x = s.find x := by
  rw [coreReparentArea] at h
  split at h
  · cases h
  · rename_i area hga
    split at h
    · cases h
    · rename_i level hlv
      dsimp only at h
      split at h
      · cases h
      · simp at h
      · split at h
        · simp at h
        · simp only [Option.some.injEq, Except.ok.injEq,
            Prod.mk.injEq] at h
          obtain ⟨h1, ⟨h2, _⟩, _⟩ := h
          subst h2
          have haid : area.id = areaId :=
            getArea_id cfg.levels s hs areaId area hga
          refine ⟨rfl, rfl, area, hga, rfl, ?_, ?_⟩
          · rw [← h1, AreaStore.find_updateArea s hs _ areaId]
            rw [if_pos]
            show areaId = area.id
            exact haid.symm
          · intro x hx
            rw [← h1, AreaStore.find_updateArea s hs _ x]
            rw [if_neg]
            intro hxe
            exact hx (hxe.trans haid)

def c9Store : AreaStore := (initState [areaP, areaQ, areaX, areaY]).store

def c9Res : CoreRes := coreReparentArea demoCfg 5 9 c9Store "X" (some "Q")

def c9S : AreaStore :=
  match c9Res with | some (.ok (t, _, _)) => t | _ => AreaStore.empty

def c9Entry : HistoryEntry :=
  match c9Res with
  | some (.ok (_, some (e, _), _)) => e
  | _ => ⟨[], [], []⟩

def c9Cs : ChangeSet :=
  match c9Res with
  | some (.ok (_, some (_, w), _)) => w
  | _ => ⟨[], [], []⟩

def c9Ret : RetVal :=
  match c9Res with | some (.ok (_, _, r)) => r | _ => .retUnit

/-- Witness: reparenting the city `X` from `P` (which keeps `Y`) to
`Q`. -/
theorem C9_reparent_frame_witness :
    c9Entry.created = [] ∧ c9Entry.deleted = [] ∧
    ∃ area, AreaStore.getArea demoCfg.levels c9Store "X" = some area ∧
      c9Entry.modified =
        [⟨area, { area with parent_id := some "Q", updated_at := 5 }⟩] ∧
      c9S.find "X" =
        some { area with parent_id := some "Q", updated_at := 5 } ∧
      ∀ x, x ≠ "X" → c9S.find x = c9Store.find x :=
  C9_reparent_frame demoCfg 5 9 c9Store
    (keyCoherent_initStore [areaP, areaQ, areaX, areaY]) "X" (some "Q")
    c9S c9Entry c9Cs c9Ret rfl

/-! ## Claim C10 -/

/-- **C10** (confirmed).  `updateArea` is an upsert: for every area
value `a` and every store, after `updateArea a` the primary map holds
`a` under `a.id`, `getArea a.id` returns `a`, and the parent and level
indexes hold `a.id` under `a.parent_id` and `a.level_key` — whether or
not a record with `a.id` existed beforehand, and the call never fails
on a missing id (`undo()` relies on this when restoring a modified
before-image whose id was deleted meanwhile). -/
theorem C10_updateArea_upsert (levels : List AreaLevel) (s : AreaStore)
    (a : Area) :
    (s.updateArea a).find a.id = some a ∧
    AreaStore.getArea levels (s.updateArea a) a.id = some a ∧
    a.id ∈ (mapFind (s.updateArea a).childrenIndex a.parent_id).getD [] ∧
    a.id ∈ (mapFind (s.updateArea a).levelIndex a.level_key).getD [] := by
  have hfind : (s.updateArea a).find a.id = some a := by
    rw [AreaStore.updateArea]
    cases hf : mapFind s.areas a.id with
    | some existing =>
        show mapFind (mapSet (s.deindexArea existing).areas a.id a) a.id =
          some a
        rw [mapFind_mapSet]
        simp
    | none =>
        show mapFind (mapSet s.areas a.id a) a.id = some a
        rw [mapFind_mapSet]
        simp
  refine ⟨hfind, ?_, ?_, ?_⟩
  · rw [AreaStore.getArea, hfind]
  · rw [AreaStore.updateArea]
    cases hf : mapFind s.areas a.id with
    | some existing => exact mem_idxAdd_self _ _ _
    | none => exact mem_idxAdd_self _ _ _
  · rw [AreaStore.updateArea]
    cases hf : mapFind s.areas a.id with
    | some existing => exact mem_idxAdd_self _ _ _
    | none => exact mem_idxAdd_self _ _ _

end MapPolygonEditor
